import Mathlib

/-!
# Quick-Log: probing engine of `src/main.cpp`

A shallow embedding of the probe (`isPortOpen`), the resolver wrapper
(`dnsLookup`), the sequential port sweep (`portScanner`) and the two threaded
host sweeps (`networkScanner`, `quickPingSweep`) of class `QuickLog`.

* `std::string` is `String`, read as its list of characters (`String.data`);
  the addresses handled are ASCII, one character per byte.
* `size_t` values are `Nat` below `2 ^ 64`, `ssize_t` and `int` values are `Int`;
  the conversions that wrap are written out (`toSsize`, `toSize`, `wrapInt32`).
* Operating-system calls (`socket`, `select`, `getsockopt`, `getaddrinfo`,
  `getnameinfo`) are oracles passed as parameters.
* The threaded sweeps are a labelled step relation over an explicit state:
  the main thread and every worker thread advance one atomic action at a time,
  in any interleaving.
-/

namespace QuickLog

/-! ## Strings and machine integers -/

/-- The constant `std::string::npos`, the largest `size_t`. -/
def npos : Nat := 2 ^ 64 - 1

/-- Conversion `size_t → ssize_t` (two's complement, 64 bits). -/
def toSsize (n : Nat) : Int :=
  if n % 2 ^ 64 < 2 ^ 63 then ((n % 2 ^ 64 : Nat) : Int) else ((n % 2 ^ 64 : Nat) : Int) - 2 ^ 64

/-- Conversion `ssize_t → size_t` (two's complement, 64 bits). -/
def toSize (z : Int) : Nat := (z % 2 ^ 64).toNat

/-- Result of an `int` operation, wrapped to 32 bits. -/
def wrapInt32 (z : Int) : Int := (z + 2 ^ 31) % 2 ^ 32 - 2 ^ 31

/-- Scan for `find_last_of`: `k` is the index of the head, `acc` the last hit so far. -/
def lastIndexFrom (c : Char) : List Char → Nat → Nat → Nat
  | [], _, acc => acc
  | x :: xs, k, acc => lastIndexFrom c xs (k + 1) (if x = c then k else acc)

/-- The call `s.find_last_of(c)`: index of the last `c` in `s`, or `npos`. -/
def find_last_of (s : String) (c : Char) : Nat := lastIndexFrom c s.data 0 npos

/-- Scan for `find_first_not_of`: `k` is the index of the head. -/
def firstNotOfFrom (chars : List Char) : List Char → Nat → Nat
  | [], _ => npos
  | x :: xs, k => if x ∈ chars then firstNotOfFrom chars xs (k + 1) else k

/-- The call `s.find_first_not_of(chars)`: index of the first character of `s`
that is not in `chars`, or `npos`. -/
def find_first_not_of (s : String) (chars : String) : Nat := firstNotOfFrom chars.data s.data 0

/-- The call `s.substr(pos, count)` for `pos ≤ s.size()`. -/
def substr (s : String) (pos count : Nat) : String := ⟨(s.data.drop pos).take count⟩

/-- The call `std::to_string(i)` for an `int`: decimal digits, `-` for negatives. -/
def to_string (i : Int) : String := toString i

/-! ## The probe: `isPortOpen` (lines 125–157) -/

/-- The `struct timeval` handed to `select`. -/
structure Timeval where
  tv_sec : Int
  tv_usec : Int
  deriving DecidableEq, Repr

/-- Lines 143–145: `tv.tv_sec = timeout_ms / 1000; tv.tv_usec = (timeout_ms % 1000) * 1000;`
with C++ `int` division and remainder (truncating). -/
def mkTimeval (timeout_ms : Int) : Timeval :=
  { tv_sec := wrapInt32 (timeout_ms.tdiv 1000)
    tv_usec := wrapInt32 (wrapInt32 (timeout_ms.tmod 1000) * 1000) }

/-- What the operating system answers during one call of `isPortOpen`. -/
structure SockOracle where
  /-- return value of `socket(AF_INET, SOCK_STREAM, 0)` -/
  socket : Int
  /-- return value of `select(sock + 1, nullptr, &fdset, nullptr, &tv)` -/
  select : Timeval → Int
  /-- value of `error` after `getsockopt(sock, SOL_SOCKET, SO_ERROR, &error, &len)` -/
  so_error : Int

/-- The operating-system calls `isPortOpen` makes. -/
inductive SysCall where
  | socket | fcntl | connect | select | getsockopt | close
  deriving DecidableEq, Repr

/-- Everything one call of `isPortOpen` does that a caller can observe. -/
structure ProbeRun where
  /-- the returned `bool` -/
  ret : Bool
  /-- the operating-system calls made, in order -/
  calls : List SysCall
  /-- text written to `std::cout` or `std::cerr` -/
  written : List String
  deriving DecidableEq, Repr

/-- The body of `isPortOpen(ip, port, timeout_ms)`, lines 126–156. -/
def isPortOpenRun (os : SockOracle) (timeout_ms : Int) : ProbeRun :=
  if os.socket < 0 then
    { ret := false, calls := [.socket], written := [] }
  else
    let tv := mkTimeval timeout_ms
    if os.select tv > 0 then
      { ret := os.so_error == 0
        calls := [.socket, .fcntl, .connect, .select, .getsockopt, .close]
        written := [] }
    else
      { ret := false, calls := [.socket, .fcntl, .connect, .select, .close], written := [] }

/-- The value returned by `isPortOpen`; `os ip port` is what the operating system
answers for this address and port. -/
def isPortOpen (os : String → Int → SockOracle) (ip : String) (port : Int)
    (timeout_ms : Int) : Bool :=
  (isPortOpenRun (os ip port) timeout_ms).ret

/-! ## Resolution and the port sweep: `dnsLookup`, `portScanner` -/

/-- Lines 159–175. `getaddrinfo host` is `none` when the call returns non-zero,
otherwise the `inet_ntop` text of the first result. -/
def dnsLookup (getaddrinfo : String → Option String) (hostname : String) : String :=
  match getaddrinfo hostname with
  | none => "Failed"
  | some ip => ip

/-- The table of lines 337–342. -/
def commonPorts : List (Int × String) :=
  [(21, "FTP"), (22, "SSH"), (23, "Telnet"), (25, "SMTP"),
   (53, "DNS"), (80, "HTTP"), (110, "POP3"), (143, "IMAP"),
   (443, "HTTPS"), (445, "SMB"), (3306, "MySQL"), (3389, "RDP"),
   (5432, "PostgreSQL"), (5900, "VNC"), (8080, "HTTP-Alt"), (8443, "HTTPS-Alt")]

/-- One `isPortOpen(ip, port, timeout_ms)` call. -/
structure ProbeCall where
  ip : String
  port : Int
  timeout_ms : Int
  deriving DecidableEq, Repr

/-- One printed table row of the port scanner: port, service, `OPEN` or `Closed`. -/
structure PortLine where
  port : Int
  service : String
  isOpen : Bool
  deriving DecidableEq, Repr

/-- What a run of `portScanner` did. -/
structure ScanOutput where
  /-- the `isPortOpen` calls made, in order -/
  probes : List ProbeCall
  /-- the table rows printed, in order -/
  report : List PortLine
  /-- whether `Could not resolve hostname` was printed -/
  unresolved : Bool
  deriving DecidableEq, Repr

/-- The loop of lines 349–364 over a port table: probe, print the row, sleep, next. -/
def portSweepLoop (probe : String → Int → Int → Bool) (ip : String) :
    List (Int × String) → ScanOutput → ScanOutput
  | [], acc => acc
  | port :: rest, acc =>
    let isOpen := probe ip port.1 3000
    portSweepLoop probe ip rest
      { acc with
        probes := acc.probes ++ [⟨ip, port.1, 3000⟩]
        report := acc.report ++ [⟨port.1, port.2, isOpen⟩] }

/-- Lines 316–367 of `portScanner`, from the target read from `std::cin`. -/
def portScanner (getaddrinfo : String → Option String) (probe : String → Int → Int → Bool)
    (target : String) : ScanOutput :=
  if find_first_not_of target "0123456789." ≠ npos then
    let ip := dnsLookup getaddrinfo target
    if ip = "Failed" then
      { probes := [], report := [], unresolved := true }
    else
      portSweepLoop probe ip commonPorts { probes := [], report := [], unresolved := false }
  else
    portSweepLoop probe target commonPorts { probes := [], report := [], unresolved := false }

/-! ## The /24 targets of the host sweeps -/

/-- Lines 205–206 and 418–419:
`ssize_t lastDot = localIP.find_last_of('.'); localIP.substr(0, lastDot + 1)`. -/
def networkPrefix (localIP : String) : String :=
  let lastDot : Int := toSsize (find_last_of localIP '.')
  substr localIP 0 (toSize (lastDot + 1))

/-- The values of `i` in `for (int i = 1; i < 255; i++)`. -/
def hostIndices : List Nat := List.range' 1 254

/-- Lines 218 and 428: `networkPrefix + std::to_string(i)`. -/
def hostIP (networkPrefix : String) (i : Nat) : String := networkPrefix ++ to_string i

/-- The addresses the workers of one sweep compute, in dispatch order. -/
def candidates (networkPrefix : String) : List String := hostIndices.map (hostIP networkPrefix)

/-! ## The threaded host sweeps: `networkScanner` (lines 214–243) and
`quickPingSweep` (lines 423–443)

Both functions run the same dispatch loop and differ in three constants and in
what a worker does once its host answered. The model starts where the loop
starts, after the local address was found and the prefix computed. -/

/-- Which of the two host sweeps runs. -/
inductive Sweep where
  | networkScanner
  | quickPingSweep
  deriving DecidableEq, Repr

namespace Sweep

/-- The batch limit: `threads.size() >= 50` (line 237), `threads.size() >= 100` (line 437). -/
def cap : Sweep → Nat
  | networkScanner => 50
  | quickPingSweep => 100

/-- The ports of the `||` chain, left to right: lines 222–224 and line 430. -/
def signalPorts : Sweep → List Int
  | networkScanner => [80, 443, 22]
  | quickPingSweep => [80, 443]

/-- The timeout passed to every `isPortOpen` call of the sweep. -/
def timeout_ms : Sweep → Int
  | networkScanner => 200
  | quickPingSweep => 100

end Sweep

/-- What the workers of a sweep read from outside: the outcome of each probe,
the reverse resolver and the captured prefix. -/
structure Env where
  /-- outcome of `isPortOpen(ip, port, timeout_ms)` -/
  probe : String → Int → Int → Bool
  /-- result of `reverseDNS(ip)` -/
  reverseDNS : String → String
  /-- the captured `networkPrefix` -/
  networkPrefix : String

/-- A line a worker writes to `std::cout`. -/
inductive OutLine where
  /-- lines 230–232: address, `hostname.substr(0, 28)`, `Online` -/
  | online (ip hostname : String)
  /-- line 433: bullet and address -/
  | bullet (ip : String)
  deriving DecidableEq, Repr

/-- The address shown on a line. -/
def OutLine.ip : OutLine → String
  | .online ip _ => ip
  | .bullet ip => ip

/-- The line worker `i` prints when its host is alive. -/
def workerLine (k : Sweep) (env : Env) (i : Nat) : OutLine :=
  match k with
  | .networkScanner =>
    .online (hostIP env.networkPrefix i) (substr (env.reverseDNS (hostIP env.networkPrefix i)) 0 28)
  | .quickPingSweep => .bullet (hostIP env.networkPrefix i)

/-- Where a worker thread stands in its lambda. -/
inductive WorkerPc where
  /-- evaluating the `||` chain; `rest` are the ports not yet probed -/
  | probing (rest : List Int)
  /-- inside `isPortOpen` for `port`; `rest` are the ports after it -/
  | inProbe (port : Int) (rest : List Int)
  /-- alive; about to call `reverseDNS(ip)` (line 227) -/
  | resolving
  /-- alive; about to construct the `lock_guard` on `cout_mutex` -/
  | waitLock
  /-- holds `cout_mutex`; about to `aliveHosts.push_back(ip)` (line 432) -/
  | pushing
  /-- holds `cout_mutex`; about to write its line to `std::cout` -/
  | printing
  /-- holds `cout_mutex`; about to leave the scope of the `lock_guard` -/
  | unlocking
  /-- the lambda returned -/
  | finished
  deriving DecidableEq, Repr

/-- An element of the vector `threads`: the captured `i` and the state of the thread. -/
structure Thread where
  id : Nat
  pc : WorkerPc
  deriving DecidableEq, Repr

/-- What the workers share. -/
structure Shared where
  /-- the owner of `cout_mutex`, if it is locked -/
  cout_mutex : Option Nat
  /-- the vector `aliveHosts` of `quickPingSweep` -/
  aliveHosts : List String
  /-- the lines written to `std::cout` by the workers -/
  cout : List OutLine
  deriving DecidableEq, Repr

/-- Where the main thread stands. -/
inductive MainPc where
  /-- at the test `i < 255` -/
  | loopHead
  /-- after `threads.push_back`, at the test `threads.size() >= cap` -/
  | check
  /-- in `for (auto& t : threads) t.join()` inside the loop, `n` threads joined -/
  | joining (n : Nat)
  /-- in the `for (auto& t : threads) t.join()` after the loop, `n` threads joined -/
  | finalJoin (n : Nat)
  /-- past the last join: the sweep is over -/
  | returned
  deriving DecidableEq, Repr

/-- The state of a running sweep. `started` and `joined` record the workers
started and joined so far, in order; the code does not store them. -/
structure State where
  i : Nat
  pc : MainPc
  threads : List Thread
  sh : Shared
  started : List Nat
  joined : List Nat
  deriving DecidableEq, Repr

/-- The atomic actions of a sweep. -/
inductive Action where
  /-- main: `threads.push_back(std::thread(...))` for index `i` -/
  | spawn (i : Nat)
  /-- main: `t.join()` returned for the worker of index `i` -/
  | join (i : Nat)
  /-- main: a test, `threads.clear()` or `i++` -/
  | control
  /-- worker `i` enters `isPortOpen` for `port` -/
  | probeStart (i : Nat) (port : Int)
  /-- worker `i` leaves `isPortOpen` for `port` with `result` -/
  | probeEnd (i : Nat) (port : Int) (result : Bool)
  /-- worker `i` called `reverseDNS` -/
  | resolve (i : Nat)
  /-- worker `i` locked `cout_mutex` -/
  | acquire (i : Nat)
  /-- worker `i` appended to `aliveHosts` -/
  | push (i : Nat)
  /-- worker `i` wrote its line to `std::cout` -/
  | print (i : Nat)
  /-- worker `i` unlocked `cout_mutex` and returned -/
  | release (i : Nat)
  /-- worker `i` returned without having found its host -/
  | giveUp (i : Nat)
  deriving DecidableEq, Repr

/-- The worker that writes to shared data in this action, if any. -/
def Action.writer : Action → Option Nat
  | .push i => some i
  | .print i => some i
  | _ => none

/-- Where a worker goes once a probe succeeded: `networkScanner` calls
`reverseDNS` first, `quickPingSweep` goes straight for the lock. -/
def Sweep.afterHit : Sweep → WorkerPc
  | .networkScanner => .resolving
  | .quickPingSweep => .waitLock

/-- Where a worker goes once it holds `cout_mutex`: `quickPingSweep` appends to
`aliveHosts` before printing, `networkScanner` only prints. -/
def Sweep.afterLock : Sweep → WorkerPc
  | .networkScanner => .printing
  | .quickPingSweep => .pushing

/-- One atomic action of a worker (the lambda of lines 217–234, resp. 427–435);
`none` when the thread has returned or waits for `cout_mutex`. -/
def workerStep (k : Sweep) (env : Env) (t : Thread) (sh : Shared) :
    Option (Action × Thread × Shared) :=
  match t.pc with
  | .probing [] => some (.giveUp t.id, ⟨t.id, .finished⟩, sh)
  | .probing (p :: rest) => some (.probeStart t.id p, ⟨t.id, .inProbe p rest⟩, sh)
  | .inProbe p rest =>
    if env.probe (hostIP env.networkPrefix t.id) p k.timeout_ms = true then
      some (.probeEnd t.id p true, ⟨t.id, k.afterHit⟩, sh)
    else
      some (.probeEnd t.id p false, ⟨t.id, .probing rest⟩, sh)
  | .resolving => some (.resolve t.id, ⟨t.id, .waitLock⟩, sh)
  | .waitLock =>
    match sh.cout_mutex with
    | some _ => none
    | none => some (.acquire t.id, ⟨t.id, k.afterLock⟩, { sh with cout_mutex := some t.id })
  | .pushing =>
    some (.push t.id, ⟨t.id, .printing⟩,
      { sh with aliveHosts := sh.aliveHosts ++ [hostIP env.networkPrefix t.id] })
  | .printing =>
    some (.print t.id, ⟨t.id, .unlocking⟩,
      { sh with cout := sh.cout ++ [workerLine k env t.id] })
  | .unlocking => some (.release t.id, ⟨t.id, .finished⟩, { sh with cout_mutex := none })
  | .finished => none

/-- One atomic action of the main thread (lines 216–243, resp. 426–443);
`none` when it has returned or waits in `join` for a running thread. -/
def mainStep (k : Sweep) (s : State) : Option (Action × State) :=
  match s.pc with
  | .loopHead =>
    if s.i < 255 then
      some (.spawn s.i,
        { s with
          threads := s.threads ++ [⟨s.i, .probing k.signalPorts⟩]
          started := s.started ++ [s.i]
          pc := .check })
    else
      some (.control, { s with pc := .finalJoin 0 })
  | .check =>
    if s.threads.length ≥ k.cap then
      some (.control, { s with pc := .joining 0 })
    else
      some (.control, { s with i := s.i + 1, pc := .loopHead })
  | .joining n =>
    match s.threads[n]? with
    | none => some (.control, { s with threads := [], i := s.i + 1, pc := .loopHead })
    | some t =>
      if t.pc = .finished then
        some (.join t.id, { s with joined := s.joined ++ [t.id], pc := .joining (n + 1) })
      else none
  | .finalJoin n =>
    match s.threads[n]? with
    | none => some (.control, { s with pc := .returned })
    | some t =>
      if t.pc = .finished then
        some (.join t.id, { s with joined := s.joined ++ [t.id], pc := .finalJoin (n + 1) })
      else none
  | .returned => none

/-- The state in which the dispatch loop is entered (lines 214–216, 423–426). -/
def init : State :=
  { i := 1, pc := .loopHead, threads := [], sh := ⟨none, [], []⟩, started := [], joined := [] }

/-- One step of the sweep: the main thread or any one worker advances. -/
inductive Step (k : Sweep) (env : Env) : State → Action → State → Prop where
  | main {s : State} {a : Action} {s' : State} :
      mainStep k s = some (a, s') → Step k env s a s'
  | worker {s : State} {a : Action} (l₁ : List Thread) (t : Thread) (l₂ : List Thread)
      (t' : Thread) (sh' : Shared) :
      s.threads = l₁ ++ t :: l₂ → workerStep k env t s.sh = some (a, t', sh') →
      Step k env s a { s with threads := l₁ ++ t' :: l₂, sh := sh' }

/-- The states a sweep can be in, under every interleaving. -/
inductive Reachable (k : Sweep) (env : Env) : State → Prop where
  | init : Reachable k env init
  | step {s : State} {a : Action} {s' : State} :
      Reachable k env s → Step k env s a s' → Reachable k env s'

/-- How many elements of `threads` the main thread has already joined. -/
def joinedCount (s : State) : Nat :=
  match s.pc with
  | .joining n => n
  | .finalJoin n => n
  | .returned => s.threads.length
  | _ => 0

/-- The workers started and not yet joined. -/
def liveWorkers (s : State) : Nat := (s.threads.drop (joinedCount s)).length

/-- Whether a thread is inside `isPortOpen`. -/
def Thread.probingNow (t : Thread) : Bool :=
  match t.pc with
  | .inProbe _ _ => true
  | _ => false

/-- The probes outstanding: threads currently inside `isPortOpen`. -/
def outstandingProbes (s : State) : Nat := s.threads.countP Thread.probingNow

/-- Whether a thread is between locking and unlocking `cout_mutex`. -/
def Thread.inCritical (t : Thread) : Bool :=
  match t.pc with
  | .pushing => true
  | .printing => true
  | .unlocking => true
  | _ => false

/-- The value of `alive` (line 222), resp. of the condition of line 430, for host `i`. -/
def hostUp (k : Sweep) (env : Env) (i : Nat) : Bool :=
  k.signalPorts.any (fun p => env.probe (hostIP env.networkPrefix i) p k.timeout_ms)

/-- The addresses reported on `std::cout`, in order of appearance. -/
def reported (s : State) : List String := s.sh.cout.map OutLine.ip

/-- The lines the workers of the hosts in `l` print, in the order of `l`. -/
def expectedLines (k : Sweep) (env : Env) (l : List Nat) : List OutLine :=
  (l.filter (hostUp k env)).map (workerLine k env)

/-- The entries the workers of the hosts in `l` append to `aliveHosts`, in the order of `l`. -/
def expectedAlive (k : Sweep) (env : Env) (l : List Nat) : List String :=
  match k with
  | .networkScanner => []
  | .quickPingSweep => (l.filter (hostUp k env)).map (hostIP env.networkPrefix)

/-- The state at the loop test after `m` rounds, when every worker runs to its
end as soon as it is started. -/
def headState (k : Sweep) (env : Env) (m : Nat) : State :=
  { i := m + 1
    pc := .loopHead
    threads := (List.range' (m - m % k.cap + 1) (m % k.cap)).map (fun i => ⟨i, .finished⟩)
    sh :=
      { cout_mutex := none
        aliveHosts := expectedAlive k env (List.range' 1 m)
        cout := expectedLines k env (List.range' 1 m) }
    started := List.range' 1 m
    joined := List.range' 1 (m - m % k.cap) }

/-- The state in which the sweep returns when every worker runs to its end as
soon as it is started. -/
def finalState (k : Sweep) (env : Env) : State :=
  { headState k env 254 with pc := .returned, i := 255, joined := hostIndices }

/-- Several steps of a sweep in a row. -/
inductive Steps (k : Sweep) (env : Env) : State → State → Prop where
  | refl (s : State) : Steps k env s s
  | tail {s s' s'' : State} {a : Action} :
      Steps k env s s' → Step k env s' a s'' → Steps k env s s''

/-- The steps of the main thread, case by case (the graph of `mainStep`). -/
inductive MainRel (k : Sweep) : State → Action → State → Prop where
  | spawn (i : Nat) (ts : List Thread) (sh : Shared) (st jn : List Nat) : i < 255 →
      MainRel k ⟨i, .loopHead, ts, sh, st, jn⟩ (.spawn i)
        ⟨i, .check, ts ++ [⟨i, .probing k.signalPorts⟩], sh, st ++ [i], jn⟩
  | exitLoop (i : Nat) (ts : List Thread) (sh : Shared) (st jn : List Nat) : ¬ i < 255 →
      MainRel k ⟨i, .loopHead, ts, sh, st, jn⟩ .control ⟨i, .finalJoin 0, ts, sh, st, jn⟩
  | full (i : Nat) (ts : List Thread) (sh : Shared) (st jn : List Nat) : ts.length ≥ k.cap →
      MainRel k ⟨i, .check, ts, sh, st, jn⟩ .control ⟨i, .joining 0, ts, sh, st, jn⟩
  | next (i : Nat) (ts : List Thread) (sh : Shared) (st jn : List Nat) : ¬ ts.length ≥ k.cap →
      MainRel k ⟨i, .check, ts, sh, st, jn⟩ .control ⟨i + 1, .loopHead, ts, sh, st, jn⟩
  | join (i n : Nat) (ts : List Thread) (sh : Shared) (st jn : List Nat) (t : Thread) :
      ts[n]? = some t → t.pc = .finished →
      MainRel k ⟨i, .joining n, ts, sh, st, jn⟩ (.join t.id)
        ⟨i, .joining (n + 1), ts, sh, st, jn ++ [t.id]⟩
  | clear (i n : Nat) (ts : List Thread) (sh : Shared) (st jn : List Nat) : ts[n]? = none →
      MainRel k ⟨i, .joining n, ts, sh, st, jn⟩ .control ⟨i + 1, .loopHead, [], sh, st, jn⟩
  | joinLast (i n : Nat) (ts : List Thread) (sh : Shared) (st jn : List Nat) (t : Thread) :
      ts[n]? = some t → t.pc = .finished →
      MainRel k ⟨i, .finalJoin n, ts, sh, st, jn⟩ (.join t.id)
        ⟨i, .finalJoin (n + 1), ts, sh, st, jn ++ [t.id]⟩
  | ret (i n : Nat) (ts : List Thread) (sh : Shared) (st jn : List Nat) : ts[n]? = none →
      MainRel k ⟨i, .finalJoin n, ts, sh, st, jn⟩ .control ⟨i, .returned, ts, sh, st, jn⟩

/-- The steps of a worker, case by case (the graph of `workerStep`). -/
inductive WorkerRel (k : Sweep) (env : Env) : Thread → Shared → Action → Thread → Shared → Prop where
  | giveUp (id : Nat) (sh : Shared) :
      WorkerRel k env ⟨id, .probing []⟩ sh (.giveUp id) ⟨id, .finished⟩ sh
  | probeStart (id : Nat) (p : Int) (rest : List Int) (sh : Shared) :
      WorkerRel k env ⟨id, .probing (p :: rest)⟩ sh (.probeStart id p) ⟨id, .inProbe p rest⟩ sh
  | hit (id : Nat) (p : Int) (rest : List Int) (sh : Shared) :
      env.probe (hostIP env.networkPrefix id) p k.timeout_ms = true →
      WorkerRel k env ⟨id, .inProbe p rest⟩ sh (.probeEnd id p true) ⟨id, k.afterHit⟩ sh
  | miss (id : Nat) (p : Int) (rest : List Int) (sh : Shared) :
      env.probe (hostIP env.networkPrefix id) p k.timeout_ms = false →
      WorkerRel k env ⟨id, .inProbe p rest⟩ sh (.probeEnd id p false) ⟨id, .probing rest⟩ sh
  | resolve (id : Nat) (sh : Shared) :
      WorkerRel k env ⟨id, .resolving⟩ sh (.resolve id) ⟨id, .waitLock⟩ sh
  | acquire (id : Nat) (sh : Shared) : sh.cout_mutex = none →
      WorkerRel k env ⟨id, .waitLock⟩ sh (.acquire id) ⟨id, k.afterLock⟩
        { sh with cout_mutex := some id }
  | push (id : Nat) (sh : Shared) :
      WorkerRel k env ⟨id, .pushing⟩ sh (.push id) ⟨id, .printing⟩
        { sh with aliveHosts := sh.aliveHosts ++ [hostIP env.networkPrefix id] }
  | print (id : Nat) (sh : Shared) :
      WorkerRel k env ⟨id, .printing⟩ sh (.print id) ⟨id, .unlocking⟩
        { sh with cout := sh.cout ++ [workerLine k env id] }
  | release (id : Nat) (sh : Shared) :
      WorkerRel k env ⟨id, .unlocking⟩ sh (.release id) ⟨id, .finished⟩
        { sh with cout_mutex := none }

/-- The line a thread has still to write, given where it stands. -/
def pendingPrint (k : Sweep) (env : Env) (t : Thread) : Option OutLine :=
  match t.pc with
  | .probing rest =>
    if rest.any (fun p => env.probe (hostIP env.networkPrefix t.id) p k.timeout_ms) then
      some (workerLine k env t.id) else none
  | .inProbe p rest =>
    if (p :: rest).any (fun p => env.probe (hostIP env.networkPrefix t.id) p k.timeout_ms) then
      some (workerLine k env t.id) else none
  | .resolving => some (workerLine k env t.id)
  | .waitLock => some (workerLine k env t.id)
  | .pushing => some (workerLine k env t.id)
  | .printing => some (workerLine k env t.id)
  | .unlocking => none
  | .finished => none

/-- The entry a thread has still to append to `aliveHosts`, given where it stands. -/
def pendingPush (k : Sweep) (env : Env) (t : Thread) : Option String :=
  match t.pc, k with
  | .pushing, _ => some (hostIP env.networkPrefix t.id)
  | .probing rest, .quickPingSweep =>
    if rest.any (fun p => env.probe (hostIP env.networkPrefix t.id) p k.timeout_ms) then
      some (hostIP env.networkPrefix t.id) else none
  | .inProbe p rest, .quickPingSweep =>
    if (p :: rest).any (fun p => env.probe (hostIP env.networkPrefix t.id) p k.timeout_ms) then
      some (hostIP env.networkPrefix t.id) else none
  | .resolving, .quickPingSweep => some (hostIP env.networkPrefix t.id)
  | .waitLock, .quickPingSweep => some (hostIP env.networkPrefix t.id)
  | _, _ => none

/-- What the position of the main thread says about the counter, the vector
`threads` and the two histories. -/
def MainInv (k : Sweep) (s : State) : Prop :=
  match s.pc with
  | .loopHead =>
    1 ≤ s.i ∧ s.i ≤ 255 ∧ s.threads.length = (s.i - 1) % k.cap ∧
    s.started = List.range' 1 (s.i - 1) ∧
    s.joined = List.range' 1 (s.i - 1 - s.threads.length) ∧
    s.threads.map Thread.id = List.range' (s.i - s.threads.length) s.threads.length
  | .check =>
    1 ≤ s.i ∧ s.i ≤ 254 ∧ s.threads.length = (s.i - 1) % k.cap + 1 ∧
    s.started = List.range' 1 s.i ∧
    s.joined = List.range' 1 (s.i - s.threads.length) ∧
    s.threads.map Thread.id = List.range' (s.i - s.threads.length + 1) s.threads.length
  | .joining n =>
    1 ≤ s.i ∧ s.i ≤ 254 ∧ s.threads.length = (s.i - 1) % k.cap + 1 ∧
    s.threads.length = k.cap ∧ n ≤ s.threads.length ∧
    s.started = List.range' 1 s.i ∧
    s.joined = List.range' 1 (s.i - s.threads.length + n) ∧
    s.threads.map Thread.id = List.range' (s.i - s.threads.length + 1) s.threads.length
  | .finalJoin n =>
    s.i = 255 ∧ s.threads.length = 254 % k.cap ∧ n ≤ s.threads.length ∧
    s.started = List.range' 1 254 ∧
    s.joined = List.range' 1 (254 - s.threads.length + n) ∧
    s.threads.map Thread.id = List.range' (255 - s.threads.length) s.threads.length
  | .returned =>
    s.i = 255 ∧ s.threads.length = 254 % k.cap ∧
    s.started = List.range' 1 254 ∧
    s.joined = List.range' 1 254 ∧
    s.threads.map Thread.id = List.range' (255 - s.threads.length) s.threads.length

/-- The invariant of the sweeps. -/
structure Inv (k : Sweep) (env : Env) (s : State) : Prop where
  /-- counter, vector and histories agree with the position of the main thread -/
  main : MainInv k s
  /-- the threads already joined have returned -/
  joinedDone : ∀ t ∈ s.threads.take (joinedCount s), t.pc = .finished
  /-- a thread inside the critical section owns the mutex -/
  owner : ∀ t ∈ s.threads, t.inCritical = true → s.sh.cout_mutex = some t.id
  /-- the mutex is locked exactly when one thread is inside the critical section -/
  critical : s.threads.countP Thread.inCritical = if s.sh.cout_mutex.isSome then 1 else 0
  /-- lines written and lines still to write are the lines of the live hosts started -/
  lines : (s.sh.cout ++ s.threads.filterMap (pendingPrint k env)).Perm
    (expectedLines k env s.started)
  /-- the same for `aliveHosts` -/
  alive : (s.sh.aliveHosts ++ s.threads.filterMap (pendingPush k env)).Perm
    (expectedAlive k env s.started)

/-- The state at the loop test after `m` rounds when no worker has moved yet. -/
def lazyState (k : Sweep) (m : Nat) : State :=
  { i := m + 1
    pc := .loopHead
    threads := (List.range' 1 m).map (fun i => ⟨i, .probing k.signalPorts⟩)
    sh := ⟨none, [], []⟩
    started := List.range' 1 m
    joined := [] }

/-- An operating system on which `socket()` fails. -/
def socketFails : SockOracle := { socket := -1, select := fun _ => 1, so_error := 0 }

/-- A network 192.168.1.0/24 in which hosts 1 and 50 answer on port 80 and
host 7 answers on port 22 only. -/
def scenarioEnv : Env :=
  { probe := fun ip port _ =>
      (port == 80 && (ip == "192.168.1.1" || ip == "192.168.1.50")) ||
      (port == 22 && ip == "192.168.1.7")
    reverseDNS := fun _ => "No PTR record"
    networkPrefix := "192.168.1." }

/-- A network 192.168.1.0/24 in which hosts 1 and 50 answer on port 80 and no
other port of any host answers. -/
def scenarioEnvA : Env :=
  { probe := fun ip port _ => port == 80 && (ip == "192.168.1.1" || ip == "192.168.1.50")
    reverseDNS := fun _ => "No PTR record"
    networkPrefix := "192.168.1." }

/-! ## Facts about the string and integer helpers -/

theorem wrapInt32_of_range (z : Int) (h₁ : -(2 ^ 31) ≤ z) (h₂ : z < 2 ^ 31) : wrapInt32 z = z := by
  unfold wrapInt32
  omega

theorem toSsize_of_lt (n : Nat) (h : n < 2 ^ 63) : toSsize n = n := by
  unfold toSsize
  have h₁ : n % 2 ^ 64 = n := Nat.mod_eq_of_lt (by omega)
  rw [h₁, if_pos h]

theorem toSsize_npos : toSsize npos = -1 := by
  decide

theorem toSize_of_range (z : Int) (h₁ : 0 ≤ z) (h₂ : z < 2 ^ 64) : toSize z = z.toNat := by
  unfold toSize
  rw [Int.emod_eq_of_lt h₁ h₂]

theorem lastIndexFrom_of_not_mem (c : Char) (ys : List Char) (k acc : Nat) (h : c ∉ ys) :
    lastIndexFrom c ys k acc = acc := by
  induction ys generalizing k acc with
  | nil => rfl
  | cons y ys ih =>
    have hy : y ≠ c := fun e => h (by simp [e])
    have hys : c ∉ ys := fun e => h (by simp [e])
    simp [lastIndexFrom, hy, ih _ _ hys]

theorem lastIndexFrom_append (c : Char) (xs ys : List Char) (k acc : Nat) (h : c ∉ ys) :
    lastIndexFrom c (xs ++ c :: ys) k acc = k + xs.length := by
  induction xs generalizing k acc with
  | nil => simp [lastIndexFrom, lastIndexFrom_of_not_mem c ys _ _ h]
  | cons x xs ih =>
    rw [List.cons_append, lastIndexFrom, ih, List.length_cons]
    omega

theorem firstNotOfFrom_all (chars xs : List Char) (k : Nat) (h : ∀ c ∈ xs, c ∈ chars) :
    firstNotOfFrom chars xs k = npos := by
  induction xs generalizing k with
  | nil => rfl
  | cons x xs ih =>
    have hx : x ∈ chars := h x (by simp)
    simp only [firstNotOfFrom, hx, if_true]
    exact ih _ (fun c hc => h c (by simp [hc]))

theorem firstNotOfFrom_lt (chars xs : List Char) (k : Nat) (h : ∃ c ∈ xs, c ∉ chars) :
    firstNotOfFrom chars xs k < k + xs.length := by
  induction xs generalizing k with
  | nil => simp at h
  | cons x xs ih =>
    by_cases hx : x ∈ chars
    · have h' : ∃ c ∈ xs, c ∉ chars := by
        obtain ⟨c, hc, hn⟩ := h
        rcases List.mem_cons.mp hc with e | e
        · exact absurd (e ▸ hx) hn
        · exact ⟨c, e, hn⟩
      have := ih (k + 1) h'
      simp only [firstNotOfFrom, hx, if_true, List.length_cons]
      omega
    · simp only [firstNotOfFrom, hx, if_false, List.length_cons]
      omega

theorem find_first_not_of_ne_npos (s chars : String) (hlen : s.length < 2 ^ 64) :
    find_first_not_of s chars ≠ npos ↔ ∃ c ∈ s.data, c ∉ chars.data := by
  unfold find_first_not_of
  constructor
  · intro h
    by_contra hne
    push_neg at hne
    exact h (firstNotOfFrom_all _ _ _ hne)
  · intro h
    have := firstNotOfFrom_lt chars.data s.data 0 h
    have hl : s.data.length = s.length := rfl
    unfold npos
    omega

theorem portSweepLoop_eq (probe : String → Int → Int → Bool) (ip : String)
    (ps : List (Int × String)) (acc : ScanOutput) :
    portSweepLoop probe ip ps acc =
      { probes := acc.probes ++ ps.map (fun p => ⟨ip, p.1, 3000⟩)
        report := acc.report ++ ps.map (fun p => ⟨p.1, p.2, probe ip p.1 3000⟩)
        unresolved := acc.unresolved } := by
  induction ps generalizing acc with
  | nil => simp [portSweepLoop]
  | cons p ps ih => simp [portSweepLoop, ih]

theorem networkPrefix_dotted (p d : String) (hd : '.' ∉ d.data)
    (hlen : (p ++ "." ++ d).length < 2 ^ 63) : networkPrefix (p ++ "." ++ d) = p ++ "." := by
  have hdata : (p ++ "." ++ d).data = p.data ++ '.' :: d.data := by
    simp [String.data_append]
  have hl : p.data.length < 2 ^ 63 := by
    have h₁ : (p ++ "." ++ d).length = (p.data ++ '.' :: d.data).length := by
      rw [← hdata]; rfl
    rw [List.length_append, List.length_cons] at h₁
    omega
  have hfind : find_last_of (p ++ "." ++ d) '.' = p.data.length := by
    unfold find_last_of
    rw [hdata, lastIndexFrom_append _ _ _ _ _ hd]
    simp
  unfold networkPrefix
  simp only [hfind]
  rw [toSsize_of_lt _ hl, toSize_of_range _ (by omega) (by omega)]
  unfold substr
  apply String.ext
  have h₂ : ((p.data.length : Int) + 1).toNat = p.data.length + 1 := by omega
  rw [h₂, hdata, String.data_append, List.drop_zero, List.take_append_eq_append_take]
  simp

theorem networkPrefix_no_dot (s : String) (h : '.' ∉ s.data) : networkPrefix s = "" := by
  have hfind : find_last_of s '.' = npos := by
    unfold find_last_of
    exact lastIndexFrom_of_not_mem _ _ _ _ h
  unfold networkPrefix
  simp only [hfind, toSsize_npos]
  apply String.ext
  simp [substr, toSize]

/-! ## Decimal texts of the host indices -/

theorem to_string_toNat : ∀ i ∈ hostIndices, (to_string (i : Nat)).toNat? = some i := by
  decide!

theorem to_string_injOn (i j : Nat) (hi : i ∈ hostIndices) (hj : j ∈ hostIndices)
    (h : to_string (i : Nat) = to_string (j : Nat)) : i = j := by
  have h₁ := to_string_toNat i hi
  have h₂ := to_string_toNat j hj
  rw [h] at h₁
  exact Option.some.inj (h₁.symm.trans h₂)

theorem string_append_cancel (a b c : String) (h : a ++ b = a ++ c) : b = c := by
  have h₁ := congrArg String.data h
  rw [String.data_append, String.data_append] at h₁
  exact String.ext (List.append_cancel_left h₁)

theorem hostIP_injOn (pfx : String) (i j : Nat) (hi : i ∈ hostIndices) (hj : j ∈ hostIndices)
    (h : hostIP pfx i = hostIP pfx j) : i = j :=
  to_string_injOn i j hi hj (string_append_cancel _ _ _ h)

theorem hostIndices_nodup : hostIndices.Nodup := List.nodup_range' 1 254

theorem candidates_nodup (pfx : String) : (candidates pfx).Nodup := by
  unfold candidates
  exact (List.nodup_map_iff_inj_on hostIndices_nodup).mpr
    (fun i hi j hj h => hostIP_injOn pfx i j hi hj h)

theorem hostIP_ne_of_toNat (pfx : String) (i n : Nat) (t : String) (hi : i ∈ hostIndices)
    (ht : t.toNat? = some n) (hn : n ∉ hostIndices) : hostIP pfx i ≠ pfx ++ t := by
  intro h
  have h₁ := string_append_cancel _ _ _ h
  have h₂ := to_string_toNat i hi
  rw [h₁, ht] at h₂
  exact hn (Option.some.inj h₂ ▸ hi)

/-! ## The step functions and their graphs -/

theorem mainStep_rel {k : Sweep} {s : State} {a : Action} {s' : State}
    (h : mainStep k s = some (a, s')) : MainRel k s a s' := by
  obtain ⟨i, pc, ts, sh, st, jn⟩ := s
  cases pc with
  | loopHead =>
    by_cases hi : i < 255
    · simp only [mainStep, hi, if_true, Option.some.injEq, Prod.mk.injEq] at h
      obtain ⟨rfl, rfl⟩ := h
      exact MainRel.spawn i ts sh st jn hi
    · simp only [mainStep, hi, if_false, Option.some.injEq, Prod.mk.injEq] at h
      obtain ⟨rfl, rfl⟩ := h
      exact MainRel.exitLoop i ts sh st jn hi
  | check =>
    by_cases hc : ts.length ≥ k.cap
    · simp only [mainStep, hc, if_true, Option.some.injEq, Prod.mk.injEq] at h
      obtain ⟨rfl, rfl⟩ := h
      exact MainRel.full i ts sh st jn hc
    · simp only [mainStep, hc, if_false, Option.some.injEq, Prod.mk.injEq] at h
      obtain ⟨rfl, rfl⟩ := h
      exact MainRel.next i ts sh st jn hc
  | joining n =>
    cases hn : ts[n]? with
    | none =>
      simp only [mainStep, hn, Option.some.injEq, Prod.mk.injEq] at h
      obtain ⟨rfl, rfl⟩ := h
      exact MainRel.clear i n ts sh st jn hn
    | some t =>
      by_cases hf : t.pc = .finished
      · simp only [mainStep, hn, hf, if_true, Option.some.injEq, Prod.mk.injEq] at h
        obtain ⟨rfl, rfl⟩ := h
        exact MainRel.join i n ts sh st jn t hn hf
      · simp [mainStep, hn, hf] at h
  | finalJoin n =>
    cases hn : ts[n]? with
    | none =>
      simp only [mainStep, hn, Option.some.injEq, Prod.mk.injEq] at h
      obtain ⟨rfl, rfl⟩ := h
      exact MainRel.ret i n ts sh st jn hn
    | some t =>
      by_cases hf : t.pc = .finished
      · simp only [mainStep, hn, hf, if_true, Option.some.injEq, Prod.mk.injEq] at h
        obtain ⟨rfl, rfl⟩ := h
        exact MainRel.joinLast i n ts sh st jn t hn hf
      · simp [mainStep, hn, hf] at h
  | returned => simp [mainStep] at h

theorem workerStep_rel {k : Sweep} {env : Env} {t : Thread} {sh : Shared} {a : Action}
    {t' : Thread} {sh' : Shared} (h : workerStep k env t sh = some (a, t', sh')) :
    WorkerRel k env t sh a t' sh' := by
  obtain ⟨id, pc⟩ := t
  cases pc with
  | probing rest =>
    cases rest with
    | nil =>
      simp only [workerStep, Option.some.injEq, Prod.mk.injEq] at h
      obtain ⟨rfl, rfl, rfl⟩ := h
      exact WorkerRel.giveUp id sh
    | cons p rest =>
      simp only [workerStep, Option.some.injEq, Prod.mk.injEq] at h
      obtain ⟨rfl, rfl, rfl⟩ := h
      exact WorkerRel.probeStart id p rest sh
  | inProbe p rest =>
    by_cases hp : env.probe (hostIP env.networkPrefix id) p k.timeout_ms = true
    · simp only [workerStep, hp, if_true, Option.some.injEq, Prod.mk.injEq] at h
      obtain ⟨rfl, rfl, rfl⟩ := h
      exact WorkerRel.hit id p rest sh hp
    · simp only [workerStep, hp, if_false, Option.some.injEq, Prod.mk.injEq] at h
      obtain ⟨rfl, rfl, rfl⟩ := h
      exact WorkerRel.miss id p rest sh (by simpa using hp)
  | resolving =>
    simp only [workerStep, Option.some.injEq, Prod.mk.injEq] at h
    obtain ⟨rfl, rfl, rfl⟩ := h
    exact WorkerRel.resolve id sh
  | waitLock =>
    cases hm : sh.cout_mutex with
    | some w => simp [workerStep, hm] at h
    | none =>
      simp only [workerStep, hm, Option.some.injEq, Prod.mk.injEq] at h
      obtain ⟨rfl, rfl, rfl⟩ := h
      exact WorkerRel.acquire id sh hm
  | pushing =>
    simp only [workerStep, Option.some.injEq, Prod.mk.injEq] at h
    obtain ⟨rfl, rfl, rfl⟩ := h
    exact WorkerRel.push id sh
  | printing =>
    simp only [workerStep, Option.some.injEq, Prod.mk.injEq] at h
    obtain ⟨rfl, rfl, rfl⟩ := h
    exact WorkerRel.print id sh
  | unlocking =>
    simp only [workerStep, Option.some.injEq, Prod.mk.injEq] at h
    obtain ⟨rfl, rfl, rfl⟩ := h
    exact WorkerRel.release id sh
  | finished => simp [workerStep] at h

theorem WorkerRel.id_eq {k : Sweep} {env : Env} {t : Thread} {sh : Shared} {a : Action}
    {t' : Thread} {sh' : Shared} (h : WorkerRel k env t sh a t' sh') : t'.id = t.id := by
  cases h <;> rfl

theorem WorkerRel.not_finished {k : Sweep} {env : Env} {t : Thread} {sh : Shared} {a : Action}
    {t' : Thread} {sh' : Shared} (h : WorkerRel k env t sh a t' sh') : t.pc ≠ .finished := by
  cases h <;> simp

/-! ## The invariant -/

theorem range'_snoc (a n b m x : Nat) (hx : x = a + n) (hb : b = a) (hm : m = n + 1) :
    List.range' a n ++ [x] = List.range' b m := by
  subst hx hm hb
  rw [List.range'_concat]
  simp

theorem cap_cases (k : Sweep) : k.cap = 50 ∨ k.cap = 100 := by
  cases k
  · exact Or.inl rfl
  · exact Or.inr rfl

theorem range'_congr (a n b m : Nat) (ha : a = b) (hn : n = m) :
    List.range' a n = List.range' b m := by
  subst ha hn
  rfl

theorem id_of_getElem? (ts : List Thread) (a n : Nat) (t : Thread)
    (hids : ts.map Thread.id = List.range' a ts.length) (h : ts[n]? = some t) :
    t.id = a + n ∧ n < ts.length := by
  have hn : n < ts.length := by
    by_contra hge
    rw [List.getElem?_eq_none (by omega)] at h
    cases h
  have h₁ : (ts.map Thread.id)[n]? = some t.id := by
    rw [List.getElem?_map, h]; rfl
  rw [hids, List.getElem?_range' _ _ hn] at h₁
  have h₂ := Option.some.inj h₁
  exact ⟨by omega, hn⟩

theorem length_le_of_getElem?_none (ts : List Thread) (n : Nat) (h : ts[n]? = none) :
    ts.length ≤ n := by
  by_contra hlt
  rw [List.getElem?_eq_getElem (by omega)] at h
  cases h

theorem mainInv_main {k : Sweep} {s : State} {a : Action} {s' : State}
    (h : MainInv k s) (hstep : MainRel k s a s') : MainInv k s' := by
  have hk := cap_cases k
  cases hstep with
  | spawn i ts sh st jn hi =>
    simp only [MainInv] at h ⊢
    obtain ⟨h₁, h₂, hL, hst, hjn, hids⟩ := h
    rw [List.map_append, hids, hst, hjn, List.length_append]
    simp only [List.length_cons, List.length_nil, List.map_cons, List.map_nil]
    generalize k.cap = c at hk hL ⊢
    rcases hk with rfl | rfl <;>
      exact ⟨h₁, by omega, by omega, range'_snoc _ _ _ _ _ (by omega) rfl (by omega),
        range'_congr _ _ _ _ rfl (by omega),
        range'_snoc _ _ _ _ _ (by omega) (by omega) (by omega)⟩
  | exitLoop i ts sh st jn hi =>
    simp only [MainInv] at h ⊢
    obtain ⟨h₁, h₂, hL, hst, hjn, hids⟩ := h
    have hi' : i = 255 := by omega
    subst hi'
    rw [hids, hst, hjn]
    generalize k.cap = c at hk hL ⊢
    rcases hk with rfl | rfl <;>
      exact ⟨rfl, by omega, by omega, rfl, range'_congr _ _ _ _ rfl (by omega), rfl⟩
  | full i ts sh st jn hc =>
    simp only [MainInv] at h ⊢
    obtain ⟨h₁, h₂, hL, hst, hjn, hids⟩ := h
    rw [hids, hst, hjn]
    generalize k.cap = c at hk hL hc ⊢
    rcases hk with rfl | rfl <;>
      exact ⟨h₁, h₂, hL, by omega, by omega, rfl, rfl, rfl⟩
  | next i ts sh st jn hc =>
    simp only [MainInv] at h ⊢
    obtain ⟨h₁, h₂, hL, hst, hjn, hids⟩ := h
    rw [hids, hst, hjn]
    generalize k.cap = c at hk hL hc ⊢
    rcases hk with rfl | rfl <;>
      exact ⟨by omega, by omega, by omega, range'_congr _ _ _ _ rfl (by omega),
        range'_congr _ _ _ _ rfl (by omega), range'_congr _ _ _ _ (by omega) rfl⟩
  | join i n ts sh st jn t hn hf =>
    simp only [MainInv] at h ⊢
    obtain ⟨h₁, h₂, hL, hcap, hle, hst, hjn, hids⟩ := h
    obtain ⟨hid, hlt⟩ := id_of_getElem? ts _ n t hids hn
    rw [hids, hst, hjn]
    generalize k.cap = c at hk hL hcap ⊢
    rcases hk with rfl | rfl <;>
      exact ⟨h₁, h₂, hL, hcap, by omega, rfl,
        range'_snoc _ _ _ _ _ (by omega) rfl (by omega), rfl⟩
  | clear i n ts sh st jn hn =>
    simp only [MainInv] at h ⊢
    obtain ⟨h₁, h₂, hL, hcap, hle, hst, hjn, hids⟩ := h
    have hge := length_le_of_getElem?_none ts n hn
    rw [hst, hjn]
    simp only [List.length_nil, List.map_nil, List.range'_zero]
    generalize k.cap = c at hk hL hcap ⊢
    rcases hk with rfl | rfl <;>
      exact ⟨by omega, by omega, by omega, range'_congr _ _ _ _ rfl (by omega),
        range'_congr _ _ _ _ rfl (by omega), trivial⟩
  | joinLast i n ts sh st jn t hn hf =>
    simp only [MainInv] at h ⊢
    obtain ⟨h₁, hL, hle, hst, hjn, hids⟩ := h
    obtain ⟨hid, hlt⟩ := id_of_getElem? ts _ n t hids hn
    rw [hids, hst, hjn]
    generalize k.cap = c at hk hL ⊢
    rcases hk with rfl | rfl <;>
      exact ⟨h₁, hL, by omega, rfl, range'_snoc _ _ _ _ _ (by omega) rfl (by omega), rfl⟩
  | ret i n ts sh st jn hn =>
    simp only [MainInv] at h ⊢
    obtain ⟨h₁, hL, hle, hst, hjn, hids⟩ := h
    have hge := length_le_of_getElem?_none ts n hn
    rw [hids, hst, hjn]
    generalize k.cap = c at hk hL ⊢
    rcases hk with rfl | rfl <;>
      exact ⟨h₁, hL, rfl, range'_congr _ _ _ _ rfl (by omega), rfl⟩

theorem mainInv_congr {k : Sweep} {s s' : State} (h : MainInv k s) (hpc : s'.pc = s.pc)
    (hi : s'.i = s.i) (hst : s'.started = s.started) (hjn : s'.joined = s.joined)
    (hids : s'.threads.map Thread.id = s.threads.map Thread.id) : MainInv k s' := by
  have hlen : s'.threads.length = s.threads.length := by
    have := congrArg List.length hids
    simpa using this
  obtain ⟨i, pc, ts, sh, st, jn⟩ := s
  obtain ⟨i', pc', ts', sh', st', jn'⟩ := s'
  simp only at hpc hi hst hjn hids hlen
  subst hpc hi hst hjn
  cases pc' <;> simp only [MainInv] at h ⊢ <;> rw [hlen, hids] <;> exact h

theorem pendingPrint_finished (k : Sweep) (env : Env) (ts : List Thread)
    (h : ∀ t ∈ ts, t.pc = .finished) : ts.filterMap (pendingPrint k env) = [] := by
  rw [List.filterMap_eq_nil_iff]
  intro t ht
  simp [pendingPrint, h t ht]

theorem pendingPush_finished (k : Sweep) (env : Env) (ts : List Thread)
    (h : ∀ t ∈ ts, t.pc = .finished) : ts.filterMap (pendingPush k env) = [] := by
  rw [List.filterMap_eq_nil_iff]
  intro t ht
  simp [pendingPush, h t ht]

theorem countP_inCritical_finished (ts : List Thread) (h : ∀ t ∈ ts, t.pc = .finished) :
    ts.countP Thread.inCritical = 0 := by
  rw [List.countP_eq_zero]
  intro t ht
  simp [Thread.inCritical, h t ht]

theorem not_inCritical_of_countP {ts : List Thread} (h : ts.countP Thread.inCritical = 0)
    (t : Thread) (ht : t ∈ ts) : t.inCritical = false := by
  rw [List.countP_eq_zero] at h
  simpa using h t ht

theorem expectedLines_snoc (k : Sweep) (env : Env) (l : List Nat) (i : Nat) :
    expectedLines k env (l ++ [i])
      = expectedLines k env l ++ (if hostUp k env i then [workerLine k env i] else []) := by
  unfold expectedLines
  rw [List.filter_append, List.map_append]
  by_cases h : hostUp k env i = true <;> simp [List.filter, h]

theorem expectedAlive_snoc (k : Sweep) (env : Env) (l : List Nat) (i : Nat) :
    expectedAlive k env (l ++ [i])
      = expectedAlive k env l ++ (pendingPush k env ⟨i, .probing k.signalPorts⟩).toList := by
  cases k with
  | networkScanner => simp [expectedAlive, pendingPush]
  | quickPingSweep =>
    simp only [expectedAlive, pendingPush]
    rw [List.filter_append, List.map_append]
    by_cases h : hostUp .quickPingSweep env i = true
    · have h' := h
      unfold hostUp at h'
      simp [List.filter, h, h']
    · have h' := h
      unfold hostUp at h'
      simp [List.filter, h, h']

theorem pendingPrint_new (k : Sweep) (env : Env) (i : Nat) :
    [(⟨i, .probing k.signalPorts⟩ : Thread)].filterMap (pendingPrint k env)
      = if hostUp k env i then [workerLine k env i] else [] := by
  by_cases h : hostUp k env i = true
  · have h' := h
    unfold hostUp at h'
    simp [pendingPrint, h, h']
  · have h' := h
    unfold hostUp at h'
    simp [pendingPrint, h, h']

theorem inv_init (k : Sweep) (env : Env) : Inv k env init := by
  refine ⟨?_, ?_, ?_, ?_, ?_, ?_⟩
  · simp [MainInv, init]
  · intro t ht; simp [init] at ht
  · intro t ht; simp [init] at ht
  · simp [init]
  · simp [init, expectedLines]
  · cases k <;> simp [init, expectedAlive]

theorem inv_main {k : Sweep} {env : Env} {s : State} {a : Action} {s' : State}
    (h : Inv k env s) (hstep : MainRel k s a s') : Inv k env s' := by
  have hmain := mainInv_main h.main hstep
  cases hstep with
  | spawn i ts sh st jn hi =>
    refine ⟨hmain, ?_, ?_, ?_, ?_, ?_⟩
    · intro t ht; simp [joinedCount] at ht
    · intro t ht hc
      rcases List.mem_append.mp ht with h₁ | h₁
      · exact h.owner t h₁ hc
      · rw [List.mem_singleton.mp h₁] at hc
        simp [Thread.inCritical] at hc
    · have := h.critical
      simp only [List.countP_append] at this ⊢
      simpa [Thread.inCritical, List.countP_cons] using this
    · have := h.lines
      simp only [List.filterMap_append, pendingPrint_new, expectedLines_snoc, ← List.append_assoc]
      exact this.append_right _
    · have := h.alive
      simp only [List.filterMap_append, expectedAlive_snoc, ← List.append_assoc]
      cases hp : pendingPush k env ⟨i, .probing k.signalPorts⟩ with
      | none => simpa [List.filterMap, hp] using this
      | some x =>
        simp only [List.filterMap, hp, Option.toList]
        exact this.append_right _
  | exitLoop i ts sh st jn hi =>
    exact ⟨hmain, by intro t ht; simp [joinedCount] at ht, h.owner, h.critical, h.lines, h.alive⟩
  | full i ts sh st jn hc =>
    exact ⟨hmain, by intro t ht; simp [joinedCount] at ht, h.owner, h.critical, h.lines, h.alive⟩
  | next i ts sh st jn hc =>
    exact ⟨hmain, by intro t ht; simp [joinedCount] at ht, h.owner, h.critical, h.lines, h.alive⟩
  | join i n ts sh st jn t hn hf =>
    refine ⟨hmain, ?_, h.owner, h.critical, h.lines, h.alive⟩
    intro x hx
    simp only [joinedCount, List.take_succ, hn, List.mem_append] at hx
    rcases hx with h₁ | h₁
    · exact h.joinedDone x h₁
    · simp at h₁; rw [h₁]; exact hf
  | joinLast i n ts sh st jn t hn hf =>
    refine ⟨hmain, ?_, h.owner, h.critical, h.lines, h.alive⟩
    intro x hx
    simp only [joinedCount, List.take_succ, hn, List.mem_append] at hx
    rcases hx with h₁ | h₁
    · exact h.joinedDone x h₁
    · simp at h₁; rw [h₁]; exact hf
  | ret i n ts sh st jn hn =>
    refine ⟨hmain, ?_, h.owner, h.critical, h.lines, h.alive⟩
    have hge := length_le_of_getElem?_none ts n hn
    intro x hx
    have := h.joinedDone x
    simp only [joinedCount, List.take_of_length_le hge] at this
    simp only [joinedCount, List.take_length] at hx
    exact this hx
  | clear i n ts sh st jn hn =>
    have hge := length_le_of_getElem?_none ts n hn
    have hall : ∀ t ∈ ts, t.pc = .finished := by
      intro x hx
      have := h.joinedDone x
      simp only [joinedCount, List.take_of_length_le hge] at this
      exact this hx
    refine ⟨hmain, ?_, ?_, ?_, ?_, ?_⟩
    · intro t ht; simp [joinedCount] at ht
    · intro t ht; simp at ht
    · have := h.critical
      simp only [countP_inCritical_finished ts hall] at this
      simpa using this
    · have := h.lines
      simp only [pendingPrint_finished k env ts hall] at this
      simpa using this
    · have := h.alive
      simp only [pendingPush_finished k env ts hall] at this
      simpa using this

theorem take_replace_of_unfinished (l₁ l₂ : List Thread) (t t' : Thread) (n : Nat)
    (ht : t.pc ≠ .finished) (h : ∀ x ∈ (l₁ ++ t :: l₂).take n, x.pc = .finished) :
    (l₁ ++ t' :: l₂).take n = (l₁ ++ t :: l₂).take n := by
  have hn : n ≤ l₁.length := by
    by_contra hlt
    apply ht
    apply h
    rw [List.mem_take_iff_getElem]
    have hlt' : l₁.length < min n (l₁ ++ t :: l₂).length := by
      simp only [List.length_append, List.length_cons]
      omega
    exact ⟨l₁.length, hlt', (List.getElem_append_right (Nat.le_refl _)).trans (by simp)⟩
  rw [List.take_append_of_le_length hn, List.take_append_of_le_length hn]

theorem inv_worker {k : Sweep} {env : Env} {i : Nat} {pc : MainPc} {l₁ l₂ : List Thread}
    {t t' : Thread} {sh sh' : Shared} {st jn : List Nat} {a : Action}
    (h : Inv k env ⟨i, pc, l₁ ++ t :: l₂, sh, st, jn⟩) (hstep : WorkerRel k env t sh a t' sh') :
    Inv k env ⟨i, pc, l₁ ++ t' :: l₂, sh', st, jn⟩ := by
  have hid := hstep.id_eq
  have hnf := hstep.not_finished
  have hmain : MainInv k ⟨i, pc, l₁ ++ t' :: l₂, sh', st, jn⟩ :=
    mainInv_congr h.main rfl rfl rfl rfl (by simp [hid])
  have hjc : joinedCount ⟨i, pc, l₁ ++ t' :: l₂, sh', st, jn⟩
      = joinedCount ⟨i, pc, l₁ ++ t :: l₂, sh, st, jn⟩ := by
    cases pc <;> simp [joinedCount]
  have hjd : ∀ x ∈ (l₁ ++ t' :: l₂).take (joinedCount ⟨i, pc, l₁ ++ t' :: l₂, sh', st, jn⟩),
      x.pc = .finished := by
    have h₀ : ∀ x ∈ (l₁ ++ t :: l₂).take (joinedCount ⟨i, pc, l₁ ++ t :: l₂, sh, st, jn⟩),
        x.pc = .finished := h.joinedDone
    rw [hjc, take_replace_of_unfinished l₁ l₂ t t' _ hnf h₀]
    exact h₀
  have hown := h.owner
  have hcrit := h.critical
  have hlines := h.lines
  have halive := h.alive
  simp only [List.countP_append, List.countP_cons, List.filterMap_append, List.filterMap_cons,
    List.mem_append, List.mem_cons] at hown hcrit hlines halive
  -- a step outside the critical section that leaves the shared data alone
  have quiet : t.inCritical = false → t'.inCritical = false → sh' = sh →
      pendingPrint k env t' = pendingPrint k env t → pendingPush k env t' = pendingPush k env t →
      Inv k env ⟨i, pc, l₁ ++ t' :: l₂, sh', st, jn⟩ := by
    intro hc hc' hsh hpp hpa
    subst hsh
    refine ⟨hmain, hjd, ?_, ?_, ?_, ?_⟩
    · intro x hx hxc
      simp only [List.mem_append, List.mem_cons] at hx
      rcases hx with h₁ | rfl | h₁
      · exact hown x (Or.inl h₁) hxc
      · rw [hc'] at hxc; cases hxc
      · exact hown x (Or.inr (Or.inr h₁)) hxc
    · simp only [List.countP_append, List.countP_cons, hc'] at hcrit ⊢
      simpa [hc] using hcrit
    · simp only [List.filterMap_append, List.filterMap_cons, hpp]
      exact hlines
    · simp only [List.filterMap_append, List.filterMap_cons, hpa]
      exact halive
  cases hstep with
  | giveUp id sh =>
    exact quiet rfl rfl rfl (by simp [pendingPrint]) (by cases k <;> simp [pendingPush])
  | probeStart id p rest sh =>
    exact quiet rfl rfl rfl (by simp [pendingPrint]) (by cases k <;> simp [pendingPush])
  | hit id p rest sh hp =>
    exact quiet rfl (by cases k <;> rfl) rfl
      (by cases k <;> simp [pendingPrint, Sweep.afterHit, hp])
      (by cases k <;> simp [pendingPush, Sweep.afterHit, hp])
  | miss id p rest sh hp =>
    exact quiet rfl rfl rfl (by simp [pendingPrint, hp]) (by cases k <;> simp [pendingPush, hp])
  | resolve id sh =>
    exact quiet rfl rfl rfl (by simp [pendingPrint]) (by cases k <;> simp [pendingPush])
  | acquire id sh hm =>
    have hzero : List.countP Thread.inCritical l₁ = 0 ∧ List.countP Thread.inCritical l₂ = 0 := by
      have h₁ : Thread.inCritical ⟨id, .waitLock⟩ = false := rfl
      simp only [hm, Option.isSome_none, h₁, Bool.false_eq_true, if_false] at hcrit
      omega
    have hc' : Thread.inCritical ⟨id, k.afterLock⟩ = true := by cases k <;> rfl
    refine ⟨hmain, hjd, ?_, ?_, ?_, ?_⟩
    · intro x hx hxc
      simp only [List.mem_append, List.mem_cons] at hx
      rcases hx with h₁ | rfl | h₁
      · rw [not_inCritical_of_countP hzero.1 x h₁] at hxc; cases hxc
      · rfl
      · rw [not_inCritical_of_countP hzero.2 x h₁] at hxc; cases hxc
    · simp only [List.countP_append, List.countP_cons, hc', hzero.1, hzero.2]
      simp
    · have hpp : pendingPrint k env ⟨id, k.afterLock⟩ = pendingPrint k env ⟨id, .waitLock⟩ := by
        cases k <;> simp [pendingPrint, Sweep.afterLock]
      simp only [List.filterMap_append, List.filterMap_cons, hpp]
      exact hlines
    · have hpa : pendingPush k env ⟨id, k.afterLock⟩ = pendingPush k env ⟨id, .waitLock⟩ := by
        cases k <;> simp [pendingPush, Sweep.afterLock]
      simp only [List.filterMap_append, List.filterMap_cons, hpa]
      exact halive
  | push id sh =>
    have hm : sh.cout_mutex = some id := hown ⟨id, .pushing⟩ (Or.inr (Or.inl rfl)) rfl
    refine ⟨hmain, hjd, ?_, ?_, ?_, ?_⟩
    · intro x hx hxc
      simp only [List.mem_append, List.mem_cons] at hx
      rcases hx with h₁ | rfl | h₁
      · exact hown x (Or.inl h₁) hxc
      · exact hm
      · exact hown x (Or.inr (Or.inr h₁)) hxc
    · simp only [List.countP_append, List.countP_cons] at hcrit ⊢
      simpa [Thread.inCritical] using hcrit
    · simp only [List.filterMap_append, List.filterMap_cons]
      simpa [pendingPrint] using hlines
    · simp only [List.filterMap_append, List.filterMap_cons]
      simp only [pendingPush] at halive ⊢
      refine List.Perm.trans ?_ halive
      simp only [List.append_assoc, List.singleton_append]
      exact (List.perm_middle.symm).append_left _
  | print id sh =>
    have hm : sh.cout_mutex = some id := hown ⟨id, .printing⟩ (Or.inr (Or.inl rfl)) rfl
    refine ⟨hmain, hjd, ?_, ?_, ?_, ?_⟩
    · intro x hx hxc
      simp only [List.mem_append, List.mem_cons] at hx
      rcases hx with h₁ | rfl | h₁
      · exact hown x (Or.inl h₁) hxc
      · exact hm
      · exact hown x (Or.inr (Or.inr h₁)) hxc
    · simp only [List.countP_append, List.countP_cons] at hcrit ⊢
      simpa [Thread.inCritical] using hcrit
    · simp only [List.filterMap_append, List.filterMap_cons]
      simp only [pendingPrint] at hlines ⊢
      refine List.Perm.trans ?_ hlines
      simp only [List.append_assoc, List.singleton_append]
      exact (List.perm_middle.symm).append_left _
    · simp only [List.filterMap_append, List.filterMap_cons]
      have h₁ : pendingPush k env ⟨id, .unlocking⟩ = pendingPush k env ⟨id, .printing⟩ := by
        cases k <;> simp [pendingPush]
      rw [h₁]
      exact halive
  | release id sh =>
    have hm : sh.cout_mutex = some id := hown ⟨id, .unlocking⟩ (Or.inr (Or.inl rfl)) rfl
    have hzero : List.countP Thread.inCritical l₁ = 0 ∧ List.countP Thread.inCritical l₂ = 0 := by
      simp only [hm, Option.isSome_some] at hcrit
      simp [Thread.inCritical] at hcrit
      omega
    refine ⟨hmain, hjd, ?_, ?_, ?_, ?_⟩
    · intro x hx hxc
      simp only [List.mem_append, List.mem_cons] at hx
      rcases hx with h₁ | rfl | h₁
      · rw [not_inCritical_of_countP hzero.1 x h₁] at hxc; cases hxc
      · cases hxc
      · rw [not_inCritical_of_countP hzero.2 x h₁] at hxc; cases hxc
    · simp only [List.countP_append, List.countP_cons, hzero.1, hzero.2]
      simp [Thread.inCritical]
    · simp only [List.filterMap_append, List.filterMap_cons]
      simpa [pendingPrint] using hlines
    · simp only [List.filterMap_append, List.filterMap_cons]
      have h₁ : pendingPush k env ⟨id, .finished⟩ = pendingPush k env ⟨id, .unlocking⟩ := by
        cases k <;> simp [pendingPush]
      rw [h₁]
      exact halive

theorem inv_step {k : Sweep} {env : Env} {s : State} {a : Action} {s' : State}
    (h : Inv k env s) (hstep : Step k env s a s') : Inv k env s' := by
  cases hstep with
  | main hm => exact inv_main h (mainStep_rel hm)
  | worker l₁ t l₂ t' sh' hts hw =>
    obtain ⟨i, pc, ts, sh, st, jn⟩ := s
    simp only at hts
    subst hts
    exact inv_worker h (workerStep_rel hw)

theorem inv_of_reachable {k : Sweep} {env : Env} {s : State} (h : Reachable k env s) :
    Inv k env s := by
  induction h with
  | init => exact inv_init k env
  | step _ hstep ih => exact inv_step ih hstep

/-! ## A run that returns -/

theorem Steps.trans {k : Sweep} {env : Env} {s₁ s₂ s₃ : State}
    (h₁ : Steps k env s₁ s₂) (h₂ : Steps k env s₂ s₃) : Steps k env s₁ s₃ := by
  induction h₂ with
  | refl => exact h₁
  | tail _ hstep ih => exact Steps.tail ih hstep

theorem reachable_of_steps {k : Sweep} {env : Env} {s s' : State}
    (h : Reachable k env s) (hs : Steps k env s s') : Reachable k env s' := by
  induction hs with
  | refl => exact h
  | tail _ hstep ih => exact Reachable.step ih hstep

theorem steps_main {k : Sweep} {env : Env} {s : State} {a : Action} {s' : State}
    (h : mainStep k s = some (a, s')) : Steps k env s s' :=
  Steps.tail (Steps.refl s) (Step.main h)

theorem steps_worker {k : Sweep} {env : Env} (i : Nat) (pc : MainPc) (l₁ l₂ : List Thread)
    (st jn : List Nat) (t' : Thread) {t : Thread} {sh : Shared} {a : Action} {sh' : Shared}
    (h : workerStep k env t sh = some (a, t', sh')) :
    Steps k env ⟨i, pc, l₁ ++ t :: l₂, sh, st, jn⟩ ⟨i, pc, l₁ ++ t' :: l₂, sh', st, jn⟩ :=
  Steps.tail (Steps.refl _)
    (Step.worker (s := ⟨i, pc, l₁ ++ t :: l₂, sh, st, jn⟩) l₁ t l₂ t' sh' rfl h)

/-- A worker whose probe succeeded takes the lock, writes and returns. -/
theorem steps_alive (k : Sweep) (env : Env) (i : Nat) (pc : MainPc) (l₁ l₂ : List Thread)
    (st jn : List Nat) (id : Nat) (al : List String) (co : List OutLine) :
    Steps k env ⟨i, pc, l₁ ++ ⟨id, k.afterHit⟩ :: l₂, ⟨none, al, co⟩, st, jn⟩
      ⟨i, pc, l₁ ++ ⟨id, .finished⟩ :: l₂,
        ⟨none, al ++ (pendingPush k env ⟨id, k.afterHit⟩).toList, co ++ [workerLine k env id]⟩,
        st, jn⟩ := by
  cases k with
  | networkScanner =>
    have e : al ++ (pendingPush .networkScanner env ⟨id, Sweep.afterHit .networkScanner⟩).toList
        = al := by simp [pendingPush, Sweep.afterHit]
    rw [e]
    refine Steps.trans (steps_worker i pc l₁ l₂ st jn ⟨id, .waitLock⟩ rfl) ?_
    refine Steps.trans (steps_worker i pc l₁ l₂ st jn ⟨id, .printing⟩ rfl) ?_
    refine Steps.trans (steps_worker i pc l₁ l₂ st jn ⟨id, .unlocking⟩ rfl) ?_
    exact steps_worker i pc l₁ l₂ st jn _ rfl
  | quickPingSweep =>
    have e : al ++ (pendingPush .quickPingSweep env ⟨id, Sweep.afterHit .quickPingSweep⟩).toList
        = al ++ [hostIP env.networkPrefix id] := by simp [pendingPush, Sweep.afterHit]
    rw [e]
    refine Steps.trans (steps_worker i pc l₁ l₂ st jn ⟨id, .pushing⟩ rfl) ?_
    refine Steps.trans (steps_worker i pc l₁ l₂ st jn ⟨id, .printing⟩ rfl) ?_
    refine Steps.trans (steps_worker i pc l₁ l₂ st jn ⟨id, .unlocking⟩ rfl) ?_
    exact steps_worker i pc l₁ l₂ st jn _ rfl

/-- A worker left alone with a free mutex runs to its end. -/
theorem steps_runWorker (k : Sweep) (env : Env) (i : Nat) (pc : MainPc) (l₁ l₂ : List Thread)
    (st jn : List Nat) (id : Nat) (al : List String) (co : List OutLine) (rest : List Int) :
    Steps k env ⟨i, pc, l₁ ++ ⟨id, .probing rest⟩ :: l₂, ⟨none, al, co⟩, st, jn⟩
      ⟨i, pc, l₁ ++ ⟨id, .finished⟩ :: l₂,
        ⟨none, al ++ (pendingPush k env ⟨id, .probing rest⟩).toList,
          co ++ (pendingPrint k env ⟨id, .probing rest⟩).toList⟩, st, jn⟩ := by
  induction rest with
  | nil =>
    have e₁ : al ++ (pendingPush k env ⟨id, .probing []⟩).toList = al := by
      cases k <;> simp [pendingPush]
    have e₂ : co ++ (pendingPrint k env ⟨id, .probing []⟩).toList = co := by
      simp [pendingPrint]
    rw [e₁, e₂]
    exact steps_worker i pc l₁ l₂ st jn _ rfl
  | cons p rest ih =>
    refine Steps.trans (steps_worker i pc l₁ l₂ st jn ⟨id, .inProbe p rest⟩ rfl) ?_
    by_cases hp : env.probe (hostIP env.networkPrefix id) p k.timeout_ms = true
    · have hw : workerStep k env ⟨id, .inProbe p rest⟩ ⟨none, al, co⟩
          = some (.probeEnd id p true, ⟨id, k.afterHit⟩, ⟨none, al, co⟩) := by
        simp [workerStep, hp]
      refine Steps.trans (steps_worker i pc l₁ l₂ st jn _ hw) ?_
      have e₁ : pendingPush k env ⟨id, .probing (p :: rest)⟩ = pendingPush k env ⟨id, k.afterHit⟩ := by
        cases k <;> simp [pendingPush, Sweep.afterHit, hp]
      have e₂ : (pendingPrint k env ⟨id, .probing (p :: rest)⟩).toList = [workerLine k env id] := by
        simp [pendingPrint, hp]
      rw [e₁, e₂]
      exact steps_alive k env i pc l₁ l₂ st jn id al co
    · have hp' : env.probe (hostIP env.networkPrefix id) p k.timeout_ms = false := by
        simpa using hp
      have hw : workerStep k env ⟨id, .inProbe p rest⟩ ⟨none, al, co⟩
          = some (.probeEnd id p false, ⟨id, .probing rest⟩, ⟨none, al, co⟩) := by
        simp [workerStep, hp']
      refine Steps.trans (steps_worker i pc l₁ l₂ st jn _ hw) ?_
      have e₁ : pendingPush k env ⟨id, .probing (p :: rest)⟩
          = pendingPush k env ⟨id, .probing rest⟩ := by
        cases k <;> simp [pendingPush, hp']
      have e₂ : pendingPrint k env ⟨id, .probing (p :: rest)⟩
          = pendingPrint k env ⟨id, .probing rest⟩ := by
        simp [pendingPrint, hp']
      rw [e₁, e₂]
      exact ih

/-- The join loop runs through a vector of threads that have all returned. -/
theorem steps_joinAll (k : Sweep) (env : Env) (i : Nat) (mk : Nat → MainPc) (ts : List Thread)
    (sh : Shared) (st : List Nat)
    (hmk : ∀ (n : Nat) (jn : List Nat) (t : Thread), ts[n]? = some t → t.pc = .finished →
      mainStep k ⟨i, mk n, ts, sh, st, jn⟩
        = some (.join t.id, ⟨i, mk (n + 1), ts, sh, st, jn ++ [t.id]⟩))
    (hall : ∀ t ∈ ts, t.pc = .finished) (d n : Nat) (jn : List Nat) (hd : n + d = ts.length) :
    Steps k env ⟨i, mk n, ts, sh, st, jn⟩
      ⟨i, mk ts.length, ts, sh, st, jn ++ (ts.drop n).map Thread.id⟩ := by
  induction d generalizing n jn with
  | zero =>
    have hn : n = ts.length := by omega
    subst hn
    simp only [List.drop_length, List.map_nil, List.append_nil]
    exact Steps.refl _
  | succ d ih =>
    have hn : n < ts.length := by omega
    have hget : ts[n]? = some ts[n] := List.getElem?_eq_getElem hn
    have hfin : ts[n].pc = .finished := hall _ (List.getElem_mem hn)
    refine Steps.trans (steps_main (hmk n jn ts[n] hget hfin)) ?_
    have e : jn ++ (ts.drop n).map Thread.id
        = (jn ++ [ts[n].id]) ++ (ts.drop (n + 1)).map Thread.id := by
      rw [List.drop_eq_getElem_cons hn, List.map_cons, List.append_assoc, List.singleton_append]
    rw [e]
    exact ih (n + 1) (jn ++ [ts[n].id]) (by omega)

theorem mainRel_step {k : Sweep} {s : State} {a : Action} {s' : State}
    (h : MainRel k s a s') : mainStep k s = some (a, s') := by
  cases h with
  | spawn i ts sh st jn hi => simp [mainStep, hi]
  | exitLoop i ts sh st jn hi => simp [mainStep, hi]
  | full i ts sh st jn hc => simp [mainStep, hc]
  | next i ts sh st jn hc => simp only [mainStep, hc, if_false]
  | join i n ts sh st jn t hn hf => simp [mainStep, hn, hf]
  | clear i n ts sh st jn hn => simp [mainStep, hn]
  | joinLast i n ts sh st jn t hn hf => simp [mainStep, hn, hf]
  | ret i n ts sh st jn hn => simp [mainStep, hn]

theorem steps_rel {k : Sweep} {env : Env} {s : State} {a : Action} {s' : State}
    (h : MainRel k s a s') : Steps k env s s' :=
  steps_main (mainRel_step h)

/-- The join loop inside the `for` loop, from its first thread. -/
theorem steps_joining (k : Sweep) (env : Env) (i : Nat) (ts : List Thread) (sh : Shared)
    (st jn : List Nat) (hall : ∀ t ∈ ts, t.pc = .finished) :
    Steps k env ⟨i, .joining 0, ts, sh, st, jn⟩
      ⟨i, .joining ts.length, ts, sh, st, jn ++ ts.map Thread.id⟩ :=
  steps_joinAll k env i MainPc.joining ts sh st
    (fun n jn t hn hf => mainRel_step (MainRel.join i n ts sh st jn t hn hf))
    hall ts.length 0 jn (Nat.zero_add _)

/-- The join loop after the `for` loop, from its first thread. -/
theorem steps_finalJoin (k : Sweep) (env : Env) (i : Nat) (ts : List Thread) (sh : Shared)
    (st jn : List Nat) (hall : ∀ t ∈ ts, t.pc = .finished) :
    Steps k env ⟨i, .finalJoin 0, ts, sh, st, jn⟩
      ⟨i, .finalJoin ts.length, ts, sh, st, jn ++ ts.map Thread.id⟩ :=
  steps_joinAll k env i MainPc.finalJoin ts sh st
    (fun n jn t hn hf => mainRel_step (MainRel.joinLast i n ts sh st jn t hn hf))
    hall ts.length 0 jn (Nat.zero_add _)

theorem headState_zero (k : Sweep) (env : Env) : headState k env 0 = init := by
  cases k <;> rfl

theorem map_id_finished (l : List Nat) :
    (l.map (fun i => (⟨i, .finished⟩ : Thread))).map Thread.id = l := by
  simp [List.map_map, Function.comp_def]

theorem finished_of_mem_map (l : List Nat) :
    ∀ t ∈ l.map (fun i => (⟨i, .finished⟩ : Thread)), t.pc = .finished := by
  intro t ht
  obtain ⟨i, _, rfl⟩ := List.mem_map.mp ht
  rfl

theorem range'_append_range' (a n b m : Nat) (hb : b = a + n) :
    List.range' a n ++ List.range' b m = List.range' a (n + m) := by
  subst hb
  rw [List.range'_append_1, Nat.add_comm]

theorem pendingPrint_toList_new (k : Sweep) (env : Env) (i : Nat) :
    (pendingPrint k env ⟨i, .probing k.signalPorts⟩).toList
      = if hostUp k env i then [workerLine k env i] else [] := by
  by_cases h : hostUp k env i = true
  · have h' := h
    unfold hostUp at h'
    simp [pendingPrint, h, h']
  · have h' := h
    unfold hostUp at h'
    simp [pendingPrint, h, h']

/-- The state after the round for host `m + 1` when the batch is not yet full. -/
theorem headState_succ_of_lt (k : Sweep) (env : Env) (m : Nat) (h : m % k.cap + 1 < k.cap) :
    headState k env (m + 1) =
      ⟨m + 1 + 1, .loopHead,
        (List.range' (m - m % k.cap + 1) (m % k.cap)).map (fun i => ⟨i, .finished⟩)
          ++ [⟨m + 1, .finished⟩],
        ⟨none, expectedAlive k env (List.range' 1 (m + 1)),
          expectedLines k env (List.range' 1 (m + 1))⟩,
        List.range' 1 (m + 1), List.range' 1 (m - m % k.cap)⟩ := by
  have hk := cap_cases k
  unfold headState
  generalize k.cap = c at hk h ⊢
  have h₁ : (m + 1) % c = m % c + 1 := by rcases hk with rfl | rfl <;> omega
  have h₂ : m + 1 - (m + 1) % c = m - m % c := by rcases hk with rfl | rfl <;> omega
  have h₃ : m - m % c + 1 + m % c = m + 1 := by rcases hk with rfl | rfl <;> omega
  rw [h₂, h₁, List.range'_concat]
  simp only [List.map_append, List.map_cons, List.map_nil, Nat.one_mul, h₃]

/-- The state after the round for host `m + 1` when it fills the batch. -/
theorem headState_succ_of_ge (k : Sweep) (env : Env) (m : Nat) (h : ¬ m % k.cap + 1 < k.cap) :
    headState k env (m + 1) =
      ⟨m + 1 + 1, .loopHead, [],
        ⟨none, expectedAlive k env (List.range' 1 (m + 1)),
          expectedLines k env (List.range' 1 (m + 1))⟩,
        List.range' 1 (m + 1),
        List.range' 1 (m - m % k.cap) ++
          (List.range' (m - m % k.cap + 1) (m % k.cap) ++ [m + 1])⟩ := by
  have hk := cap_cases k
  unfold headState
  generalize k.cap = c at hk h ⊢
  have h₁ : (m + 1) % c = 0 := by rcases hk with rfl | rfl <;> omega
  have h₃ : m - m % c + 1 + m % c = m + 1 := by rcases hk with rfl | rfl <;> omega
  have h₄ : m - m % c + (m % c + 1) = m + 1 := by omega
  rw [h₁, range'_snoc _ _ (m - m % c + 1) (m % c + 1) (m + 1) (by omega) rfl rfl,
    range'_append_range' _ _ _ _ (by omega)]
  simp only [List.range'_zero, List.map_nil, Nat.sub_zero, h₄]

/-- One round of the loop: start the worker, let it run, test the batch size. -/
theorem steps_round (k : Sweep) (env : Env) (m : Nat) (hm : m < 254) :
    Steps k env (headState k env m) (headState k env (m + 1)) := by
  -- start the worker for host `m + 1`
  refine Steps.trans (steps_rel (MainRel.spawn (m + 1) _ _ _ _ (by omega))) ?_
  -- let it run to its end
  refine Steps.trans (steps_runWorker k env _ _ _ [] _ _ (m + 1) _ _ k.signalPorts) ?_
  rw [← expectedAlive_snoc, pendingPrint_toList_new, ← expectedLines_snoc,
    range'_snoc 1 m 1 (m + 1) (m + 1) (by omega) rfl rfl]
  have hall : ∀ t ∈ (List.range' (m - m % k.cap + 1) (m % k.cap)).map
      (fun i => (⟨i, .finished⟩ : Thread)) ++ [(⟨m + 1, .finished⟩ : Thread)],
      t.pc = .finished := by
    intro t ht
    rcases List.mem_append.mp ht with h | h
    · exact finished_of_mem_map _ t h
    · rw [List.mem_singleton.mp h]
  by_cases hc : m % k.cap + 1 < k.cap
  · -- the batch is not full: next round
    rw [headState_succ_of_lt k env m hc]
    exact steps_rel (MainRel.next _ _ _ _ _ (by simp; omega))
  · -- the batch is full: join every thread and clear the vector
    rw [headState_succ_of_ge k env m hc]
    refine Steps.trans (steps_rel (MainRel.full _ _ _ _ _ (by simp; omega))) ?_
    refine Steps.trans (steps_joining k env _ _ _ _ _ hall) ?_
    rw [List.map_append, map_id_finished]
    exact steps_rel (MainRel.clear _ _ _ _ _ _ (List.getElem?_eq_none (le_refl _)))

/-- The loop test is reached after every number of rounds up to 254. -/
theorem reachable_headState (k : Sweep) (env : Env) (m : Nat) (hm : m ≤ 254) :
    Reachable k env (headState k env m) := by
  induction m with
  | zero => rw [headState_zero]; exact Reachable.init
  | succ m ih => exact reachable_of_steps (ih (by omega)) (steps_round k env m (by omega))

/-- The sweep can return: the final state is reachable. -/
theorem reachable_finalState (k : Sweep) (env : Env) : Reachable k env (finalState k env) := by
  refine reachable_of_steps (reachable_headState k env 254 (le_refl _)) ?_
  refine Steps.trans (steps_rel (MainRel.exitLoop _ _ _ _ _ (by decide))) ?_
  refine Steps.trans (steps_finalJoin k env _ _ _ _ _ (finished_of_mem_map _)) ?_
  have hj : List.range' 1 (254 - 254 % k.cap)
      ++ List.range' (254 - 254 % k.cap + 1) (254 % k.cap) = hostIndices := by
    cases k <;> decide!
  rw [map_id_finished, hj]
  exact steps_rel (MainRel.ret _ _ _ _ _ _ (List.getElem?_eq_none (le_refl _)))

/-! ## Every run can be completed -/

/-- A thread inside the critical section runs to its end and frees the mutex. -/
theorem steps_leave_critical (k : Sweep) (env : Env) (i : Nat) (pc : MainPc)
    (l₁ l₂ : List Thread) (st jn : List Nat) (t : Thread) (sh : Shared)
    (hc : t.inCritical = true) :
    ∃ sh' : Shared, sh'.cout_mutex = none ∧
      Steps k env ⟨i, pc, l₁ ++ t :: l₂, sh, st, jn⟩
        ⟨i, pc, l₁ ++ ⟨t.id, .finished⟩ :: l₂, sh', st, jn⟩ := by
  obtain ⟨id, wpc⟩ := t
  cases wpc with
  | pushing =>
    refine ⟨_, ?_, Steps.trans (steps_worker i pc l₁ l₂ st jn ⟨id, .printing⟩ rfl)
      (Steps.trans (steps_worker i pc l₁ l₂ st jn ⟨id, .unlocking⟩ rfl)
        (steps_worker i pc l₁ l₂ st jn ⟨id, .finished⟩ rfl))⟩
    rfl
  | printing =>
    refine ⟨_, ?_, Steps.trans (steps_worker i pc l₁ l₂ st jn ⟨id, .unlocking⟩ rfl)
      (steps_worker i pc l₁ l₂ st jn ⟨id, .finished⟩ rfl)⟩
    rfl
  | unlocking =>
    refine ⟨_, ?_, steps_worker i pc l₁ l₂ st jn ⟨id, .finished⟩ rfl⟩
    rfl
  | probing rest => simp [Thread.inCritical] at hc
  | inProbe p rest => simp [Thread.inCritical] at hc
  | resolving => simp [Thread.inCritical] at hc
  | waitLock => simp [Thread.inCritical] at hc
  | finished => simp [Thread.inCritical] at hc

/-- A thread waiting for a free mutex takes it, writes and returns. -/
theorem steps_from_waitLock (k : Sweep) (env : Env) (i : Nat) (pc : MainPc)
    (l₁ l₂ : List Thread) (st jn : List Nat) (id : Nat) (sh : Shared)
    (hfree : sh.cout_mutex = none) :
    ∃ sh' : Shared, sh'.cout_mutex = none ∧
      Steps k env ⟨i, pc, l₁ ++ ⟨id, .waitLock⟩ :: l₂, sh, st, jn⟩
        ⟨i, pc, l₁ ++ ⟨id, .finished⟩ :: l₂, sh', st, jn⟩ := by
  have hw : workerStep k env ⟨id, .waitLock⟩ sh
      = some (.acquire id, ⟨id, k.afterLock⟩, { sh with cout_mutex := some id }) := by
    simp [workerStep, hfree]
  have hc : Thread.inCritical ⟨id, k.afterLock⟩ = true := by cases k <;> rfl
  obtain ⟨sh', hfree', hs⟩ :=
    steps_leave_critical k env i pc l₁ l₂ st jn ⟨id, k.afterLock⟩
      { sh with cout_mutex := some id } hc
  exact ⟨sh', hfree', Steps.trans (steps_worker i pc l₁ l₂ st jn _ hw) hs⟩

/-- A thread whose probe succeeded runs to its end when the mutex is free. -/
theorem steps_from_afterHit (k : Sweep) (env : Env) (i : Nat) (pc : MainPc)
    (l₁ l₂ : List Thread) (st jn : List Nat) (id : Nat) (sh : Shared)
    (hfree : sh.cout_mutex = none) :
    ∃ sh' : Shared, sh'.cout_mutex = none ∧
      Steps k env ⟨i, pc, l₁ ++ ⟨id, k.afterHit⟩ :: l₂, sh, st, jn⟩
        ⟨i, pc, l₁ ++ ⟨id, .finished⟩ :: l₂, sh', st, jn⟩ := by
  cases k with
  | networkScanner =>
    obtain ⟨sh', hfree', hs⟩ :=
      steps_from_waitLock .networkScanner env i pc l₁ l₂ st jn id sh hfree
    exact ⟨sh', hfree', Steps.trans (steps_worker i pc l₁ l₂ st jn ⟨id, .waitLock⟩ rfl) hs⟩
  | quickPingSweep =>
    exact steps_from_waitLock .quickPingSweep env i pc l₁ l₂ st jn id sh hfree

/-- A thread evaluating its chain of probes runs to its end when the mutex is free. -/
theorem steps_from_probing (k : Sweep) (env : Env) (i : Nat) (pc : MainPc)
    (l₁ l₂ : List Thread) (st jn : List Nat) (id : Nat) (sh : Shared)
    (hfree : sh.cout_mutex = none) (rest : List Int) :
    ∃ sh' : Shared, sh'.cout_mutex = none ∧
      Steps k env ⟨i, pc, l₁ ++ ⟨id, .probing rest⟩ :: l₂, sh, st, jn⟩
        ⟨i, pc, l₁ ++ ⟨id, .finished⟩ :: l₂, sh', st, jn⟩ := by
  induction rest with
  | nil => exact ⟨sh, hfree, steps_worker i pc l₁ l₂ st jn ⟨id, .finished⟩ rfl⟩
  | cons p rest ih =>
    by_cases hp : env.probe (hostIP env.networkPrefix id) p k.timeout_ms = true
    · have hw : workerStep k env ⟨id, .inProbe p rest⟩ sh
          = some (.probeEnd id p true, ⟨id, k.afterHit⟩, sh) := by
        simp [workerStep, hp]
      obtain ⟨sh', hfree', hs⟩ := steps_from_afterHit k env i pc l₁ l₂ st jn id sh hfree
      exact ⟨sh', hfree', Steps.trans (steps_worker i pc l₁ l₂ st jn ⟨id, .inProbe p rest⟩ rfl)
        (Steps.trans (steps_worker i pc l₁ l₂ st jn _ hw) hs)⟩
    · have hw : workerStep k env ⟨id, .inProbe p rest⟩ sh
          = some (.probeEnd id p false, ⟨id, .probing rest⟩, sh) := by
        simp [workerStep, hp]
      obtain ⟨sh', hfree', hs⟩ := ih
      exact ⟨sh', hfree', Steps.trans (steps_worker i pc l₁ l₂ st jn ⟨id, .inProbe p rest⟩ rfl)
        (Steps.trans (steps_worker i pc l₁ l₂ st jn _ hw) hs)⟩

/-- Any thread outside the critical section runs to its end when the mutex is free. -/
theorem steps_finish_free (k : Sweep) (env : Env) (i : Nat) (pc : MainPc)
    (l₁ l₂ : List Thread) (st jn : List Nat) (t : Thread) (sh : Shared)
    (hfree : sh.cout_mutex = none) (hc : t.inCritical = false) :
    ∃ sh' : Shared, sh'.cout_mutex = none ∧
      Steps k env ⟨i, pc, l₁ ++ t :: l₂, sh, st, jn⟩
        ⟨i, pc, l₁ ++ ⟨t.id, .finished⟩ :: l₂, sh', st, jn⟩ := by
  obtain ⟨id, wpc⟩ := t
  cases wpc with
  | probing rest => exact steps_from_probing k env i pc l₁ l₂ st jn id sh hfree rest
  | inProbe p rest =>
    by_cases hp : env.probe (hostIP env.networkPrefix id) p k.timeout_ms = true
    · have hw : workerStep k env ⟨id, .inProbe p rest⟩ sh
          = some (.probeEnd id p true, ⟨id, k.afterHit⟩, sh) := by
        simp [workerStep, hp]
      obtain ⟨sh', hfree', hs⟩ := steps_from_afterHit k env i pc l₁ l₂ st jn id sh hfree
      exact ⟨sh', hfree', Steps.trans (steps_worker i pc l₁ l₂ st jn _ hw) hs⟩
    · have hw : workerStep k env ⟨id, .inProbe p rest⟩ sh
          = some (.probeEnd id p false, ⟨id, .probing rest⟩, sh) := by
        simp [workerStep, hp]
      obtain ⟨sh', hfree', hs⟩ := steps_from_probing k env i pc l₁ l₂ st jn id sh hfree rest
      exact ⟨sh', hfree', Steps.trans (steps_worker i pc l₁ l₂ st jn _ hw) hs⟩
  | resolving =>
    obtain ⟨sh', hfree', hs⟩ := steps_from_waitLock k env i pc l₁ l₂ st jn id sh hfree
    exact ⟨sh', hfree', Steps.trans (steps_worker i pc l₁ l₂ st jn ⟨id, .waitLock⟩ rfl) hs⟩
  | waitLock => exact steps_from_waitLock k env i pc l₁ l₂ st jn id sh hfree
  | finished => exact ⟨sh, hfree, Steps.refl _⟩
  | pushing => simp [Thread.inCritical] at hc
  | printing => simp [Thread.inCritical] at hc
  | unlocking => simp [Thread.inCritical] at hc

/-- With a free mutex and nobody inside the critical section, the threads can
be run to their ends one after the other. -/
theorem steps_drain_free (k : Sweep) (env : Env) (i : Nat) (pc : MainPc) (st jn : List Nat)
    (rest : List Thread) :
    ∀ (done : List Thread) (sh : Shared), sh.cout_mutex = none →
      (∀ t ∈ done, t.pc = .finished) → (∀ t ∈ rest, t.inCritical = false) →
      ∃ (ts' : List Thread) (sh' : Shared), (∀ t ∈ ts', t.pc = .finished) ∧
        Steps k env ⟨i, pc, done ++ rest, sh, st, jn⟩ ⟨i, pc, ts', sh', st, jn⟩ := by
  induction rest with
  | nil =>
    intro done sh _ hdone _
    exact ⟨done, sh, hdone, by rw [List.append_nil]; exact Steps.refl _⟩
  | cons t rest ih =>
    intro done sh hfree hdone hrest
    obtain ⟨sh₁, hfree₁, hs₁⟩ :=
      steps_finish_free k env i pc done rest st jn t sh hfree (hrest t (by simp))
    have hdone' : ∀ x ∈ done ++ [(⟨t.id, .finished⟩ : Thread)], x.pc = .finished := by
      intro x hx
      rcases List.mem_append.mp hx with h | h
      · exact hdone x h
      · rw [List.mem_singleton.mp h]
    obtain ⟨ts', sh', hall, hs₂⟩ :=
      ih (done ++ [⟨t.id, .finished⟩]) sh₁ hfree₁ hdone' (fun x hx => hrest x (by simp [hx]))
    rw [List.append_assoc, List.singleton_append] at hs₂
    exact ⟨ts', sh', hall, Steps.trans hs₁ hs₂⟩

/-- From every reachable state the threads can be run to their ends while the
main thread stands still. -/
theorem steps_drain {k : Sweep} {env : Env} {s : State} (h : Reachable k env s) :
    ∃ s' : State, Steps k env s s' ∧ s'.i = s.i ∧ s'.pc = s.pc ∧
      ∀ t ∈ s'.threads, t.pc = .finished := by
  have hinv := inv_of_reachable h
  obtain ⟨i, pc, ts, sh, st, jn⟩ := s
  -- first the owner of the mutex, if there is one
  have hfirst : ∃ (ts₁ : List Thread) (sh₁ : Shared), sh₁.cout_mutex = none ∧
      Steps k env ⟨i, pc, ts, sh, st, jn⟩ ⟨i, pc, ts₁, sh₁, st, jn⟩ := by
    cases hm : sh.cout_mutex with
    | none => exact ⟨ts, sh, hm, Steps.refl _⟩
    | some w =>
      have hcount := hinv.critical
      simp only [hm, Option.isSome_some, if_true] at hcount
      have hpos : 0 < ts.countP Thread.inCritical := by omega
      obtain ⟨t, ht, hc⟩ := List.countP_pos_iff.mp hpos
      obtain ⟨l₁, l₂, rfl⟩ := List.append_of_mem ht
      obtain ⟨sh₁, hfree₁, hs₁⟩ := steps_leave_critical k env i pc l₁ l₂ st jn t sh hc
      exact ⟨_, sh₁, hfree₁, hs₁⟩
  obtain ⟨ts₁, sh₁, hfree₁, hs₁⟩ := hfirst
  have hinv₁ := inv_of_reachable (reachable_of_steps h hs₁)
  have hcount₁ := hinv₁.critical
  simp only [hfree₁, Option.isSome_none, Bool.false_eq_true, if_false] at hcount₁
  obtain ⟨ts', sh', hall, hs₂⟩ := steps_drain_free k env i pc st jn ts₁ [] sh₁ hfree₁
    (by intro t ht; simp at ht) (fun t ht => not_inCritical_of_countP hcount₁ t ht)
  rw [List.nil_append] at hs₂
  exact ⟨_, Steps.trans hs₁ hs₂, rfl, rfl, hall⟩

/-- From the join loop after the `for` loop the sweep can return. -/
theorem can_return_of_finalJoin {k : Sweep} {env : Env} {s : State} (h : Reachable k env s)
    (n : Nat) (hpc : s.pc = .finalJoin n) :
    ∃ s' : State, Steps k env s s' ∧ s'.pc = .returned := by
  obtain ⟨s₁, hs₁, hi₁, hpc₁, hall⟩ := steps_drain h
  have hinv₁ := inv_of_reachable (reachable_of_steps h hs₁)
  obtain ⟨i, pc, ts, sh, st, jn⟩ := s₁
  simp only at hpc₁ hall
  rw [hpc] at hpc₁
  subst hpc₁
  have hn : n ≤ ts.length := by
    have := hinv₁.main
    simp only [MainInv] at this
    exact this.2.2.1
  have hs₂ := steps_joinAll k env i MainPc.finalJoin ts sh st
    (fun n jn t hn hf => mainRel_step (MainRel.joinLast i n ts sh st jn t hn hf))
    hall (ts.length - n) n jn (by omega)
  have hs₃ : Steps k env ⟨i, .finalJoin ts.length, ts, sh, st, jn ++ (ts.drop n).map Thread.id⟩
      ⟨i, .returned, ts, sh, st, jn ++ (ts.drop n).map Thread.id⟩ :=
    steps_rel (MainRel.ret _ _ _ _ _ _ (List.getElem?_eq_none (le_refl _)))
  exact ⟨_, Steps.trans hs₁ (Steps.trans hs₂ hs₃), rfl⟩

/-- The sweep can return from every reachable state; induction on the distance
of the main thread from the end of the `for` loop. -/
theorem can_return_aux (k : Sweep) (env : Env) (N : Nat) :
    ∀ s : State, Reachable k env s →
      3 * (255 - s.i) + (match s.pc with | .loopHead => 2 | .check => 1 | _ => 0) ≤ N →
      ∃ s' : State, Steps k env s s' ∧ s'.pc = .returned := by
  induction N with
  | zero =>
    intro s h hμ
    obtain ⟨i, pc, ts, sh, st, jn⟩ := s
    have hm := (inv_of_reachable h).main
    cases pc with
    | loopHead => simp at hμ
    | check => simp at hμ
    | joining n =>
      simp only [MainInv] at hm
      simp at hμ
      omega
    | finalJoin n => exact can_return_of_finalJoin h n rfl
    | returned => exact ⟨_, Steps.refl _, rfl⟩
  | succ N ih =>
    intro s h hμ
    have hm := (inv_of_reachable h).main
    obtain ⟨i, pc, ts, sh, st, jn⟩ := s
    cases pc with
    | returned => exact ⟨_, Steps.refl _, rfl⟩
    | finalJoin n => exact can_return_of_finalJoin h n rfl
    | loopHead =>
      by_cases hi : i < 255
      · have hs := @steps_rel k env _ _ _ (MainRel.spawn i ts sh st jn hi)
        obtain ⟨s', hs', hret⟩ := ih _ (reachable_of_steps h hs) (by simp at hμ ⊢; omega)
        exact ⟨s', Steps.trans hs hs', hret⟩
      · have hs := @steps_rel k env _ _ _ (MainRel.exitLoop i ts sh st jn hi)
        obtain ⟨s', hs', hret⟩ := can_return_of_finalJoin (reachable_of_steps h hs) 0 rfl
        exact ⟨s', Steps.trans hs hs', hret⟩
    | check =>
      simp only [MainInv] at hm
      by_cases hc : ts.length ≥ k.cap
      · have hs := @steps_rel k env _ _ _ (MainRel.full i ts sh st jn hc)
        obtain ⟨s', hs', hret⟩ := ih _ (reachable_of_steps h hs) (by simp at hμ ⊢; omega)
        exact ⟨s', Steps.trans hs hs', hret⟩
      · have hs := @steps_rel k env _ _ _ (MainRel.next i ts sh st jn hc)
        obtain ⟨s', hs', hret⟩ := ih _ (reachable_of_steps h hs) (by simp at hμ ⊢; omega)
        exact ⟨s', Steps.trans hs hs', hret⟩
    | joining n =>
      obtain ⟨s₁, hs₁, hi₁, hpc₁, hall⟩ := steps_drain h
      have hinv₁ := inv_of_reachable (reachable_of_steps h hs₁)
      obtain ⟨i₁, pc₁, ts₁, sh₁, st₁, jn₁⟩ := s₁
      simp only at hpc₁ hall hi₁
      subst hpc₁ hi₁
      have hm₁ := hinv₁.main
      simp only [MainInv] at hm₁
      have hs₂ := steps_joinAll k env i₁ MainPc.joining ts₁ sh₁ st₁
        (fun n jn t hn hf => mainRel_step (MainRel.join i₁ n ts₁ sh₁ st₁ jn t hn hf))
        hall (ts₁.length - n) n jn₁ (by omega)
      have hs₃ : Steps k env
          ⟨i₁, .joining ts₁.length, ts₁, sh₁, st₁, jn₁ ++ (ts₁.drop n).map Thread.id⟩
          ⟨i₁ + 1, .loopHead, [], sh₁, st₁, jn₁ ++ (ts₁.drop n).map Thread.id⟩ :=
        steps_rel (MainRel.clear _ _ _ _ _ _ (List.getElem?_eq_none (le_refl _)))
      have hs := Steps.trans hs₁ (Steps.trans hs₂ hs₃)
      obtain ⟨s', hs', hret⟩ := ih _ (reachable_of_steps h hs) (by simp at hμ ⊢; omega)
      exact ⟨s', Steps.trans hs hs', hret⟩

/-- From every reachable state the sweep can run on until it returns. -/
theorem can_return {k : Sweep} {env : Env} {s : State} (h : Reachable k env s) :
    ∃ s' : State, Steps k env s s' ∧ s'.pc = .returned :=
  can_return_aux k env _ s h (le_refl _)

/-! ## The ceiling is attained -/

theorem reachable_lazyState (k : Sweep) (env : Env) (m : Nat) (hm : m < k.cap) :
    Reachable k env (lazyState k m) := by
  induction m with
  | zero => exact Reachable.init
  | succ m ih =>
    have hcap : k.cap ≤ 100 := by cases k <;> decide
    refine reachable_of_steps (ih (by omega)) ?_
    refine Steps.trans (steps_rel (MainRel.spawn (m + 1) _ _ _ _ (by omega))) ?_
    have e : lazyState k (m + 1)
        = ⟨m + 1 + 1, .loopHead,
            (List.range' 1 m).map (fun i => (⟨i, .probing k.signalPorts⟩ : Thread))
              ++ [⟨m + 1, .probing k.signalPorts⟩],
            ⟨none, [], []⟩, List.range' 1 m ++ [m + 1], []⟩ := by
      unfold lazyState
      rw [List.range'_concat]
      simp [Nat.add_comm]
    rw [e]
    exact steps_rel (MainRel.next _ _ _ _ _ (by simp; omega))

/-- Threads that have not moved yet can all enter their first probe. -/
theorem steps_all_probe (k : Sweep) (env : Env) (i : Nat) (pc : MainPc) (sh : Shared)
    (st jn : List Nat) (p : Int) (rest : List Int) (l : List Nat) :
    ∀ done : List Thread,
      Steps k env ⟨i, pc, done ++ l.map (fun j => ⟨j, .probing (p :: rest)⟩), sh, st, jn⟩
        ⟨i, pc, done ++ l.map (fun j => ⟨j, .inProbe p rest⟩), sh, st, jn⟩ := by
  induction l with
  | nil => intro done; exact Steps.refl _
  | cons j l ih =>
    intro done
    simp only [List.map_cons]
    refine Steps.trans (steps_worker i pc done _ st jn ⟨j, .inProbe p rest⟩ rfl) ?_
    have := ih (done ++ [⟨j, .inProbe p rest⟩])
    simpa only [List.append_assoc, List.singleton_append] using this

/-- A full batch with every worker inside a probe is reachable. -/
theorem reachable_fullBatch (k : Sweep) (env : Env) :
    ∃ s : State, Reachable k env s ∧ liveWorkers s = k.cap ∧ outstandingProbes s = k.cap := by
  obtain ⟨p, rest, hp⟩ : ∃ p rest, k.signalPorts = p :: rest := by
    cases k
    · exact ⟨80, [443, 22], rfl⟩
    · exact ⟨80, [443], rfl⟩
  have hpos : 0 < k.cap := by cases k <;> decide
  have hcap : k.cap ≤ 100 := by cases k <;> decide
  have h₀ := reachable_lazyState k env (k.cap - 1) (by omega)
  have h₁ : Steps k env (lazyState k (k.cap - 1))
      ⟨k.cap - 1 + 1, .check,
        [] ++ (List.range' 1 (k.cap - 1) ++ [k.cap - 1 + 1]).map
          (fun j => (⟨j, .probing (p :: rest)⟩ : Thread)),
        ⟨none, [], []⟩, List.range' 1 (k.cap - 1) ++ [k.cap - 1 + 1], []⟩ := by
    have := @steps_rel k env _ _ _
      (MainRel.spawn (k.cap - 1 + 1)
        ((List.range' 1 (k.cap - 1)).map (fun i => (⟨i, .probing k.signalPorts⟩ : Thread)))
        ⟨none, [], []⟩ (List.range' 1 (k.cap - 1)) [] (by omega))
    rw [hp] at this
    simpa [lazyState, hp] using this
  have h₂ := steps_all_probe k env (k.cap - 1 + 1) .check ⟨none, [], []⟩
    (List.range' 1 (k.cap - 1) ++ [k.cap - 1 + 1]) [] p rest
    (List.range' 1 (k.cap - 1) ++ [k.cap - 1 + 1]) []
  refine ⟨_, reachable_of_steps h₀ (Steps.trans h₁ h₂), ?_, ?_⟩
  · simp [liveWorkers, joinedCount]
    omega
  · simp only [outstandingProbes, List.nil_append]
    rw [List.countP_eq_length.mpr]
    · simp; omega
    · intro t ht
      obtain ⟨j, _, rfl⟩ := List.mem_map.mp ht
      rfl

/-! ## The probe -/

/-- C9. For an `int` timeout `timeout_ms ≥ 0`, the `timeval` built by `isPortOpen`
is `tv_sec = timeout_ms / 1000`, `tv_usec = (timeout_ms % 1000) * 1000`; it amounts
to exactly `timeout_ms` milliseconds and `tv_usec` lies in `[0, 1000000)`. The
timeouts 100, 200 and 3000 give `(0, 100000)`, `(0, 200000)` and `(3, 0)`. -/
theorem mkTimeval_exact (timeout_ms : Int) (h₀ : 0 ≤ timeout_ms) (hmax : timeout_ms < 2 ^ 31) :
    (mkTimeval timeout_ms).tv_sec = timeout_ms / 1000 ∧
    (mkTimeval timeout_ms).tv_usec = (timeout_ms % 1000) * 1000 ∧
    (mkTimeval timeout_ms).tv_sec * 1000000 + (mkTimeval timeout_ms).tv_usec
      = timeout_ms * 1000 ∧
    0 ≤ (mkTimeval timeout_ms).tv_usec ∧ (mkTimeval timeout_ms).tv_usec < 1000000 ∧
    mkTimeval 100 = ⟨0, 100000⟩ ∧ mkTimeval 200 = ⟨0, 200000⟩ ∧ mkTimeval 3000 = ⟨3, 0⟩ := by
  have hd : timeout_ms.tdiv 1000 = timeout_ms / 1000 :=
    Int.tdiv_eq_ediv h₀ (by decide)
  have hm : timeout_ms.tmod 1000 = timeout_ms % 1000 :=
    Int.tmod_eq_emod h₀ (by decide)
  have hs : (mkTimeval timeout_ms).tv_sec = timeout_ms / 1000 := by
    show wrapInt32 (timeout_ms.tdiv 1000) = _
    rw [hd]
    exact wrapInt32_of_range _ (by omega) (by omega)
  have hu : (mkTimeval timeout_ms).tv_usec = (timeout_ms % 1000) * 1000 := by
    show wrapInt32 (wrapInt32 (timeout_ms.tmod 1000) * 1000) = _
    rw [hm, wrapInt32_of_range (timeout_ms % 1000) (by omega) (by omega)]
    exact wrapInt32_of_range _ (by omega) (by omega)
  refine ⟨hs, hu, ?_, ?_, ?_, by decide, by decide, by decide⟩
  · rw [hs, hu]; omega
  · rw [hu]; omega
  · rw [hu]; omega

theorem mkTimeval_exact_witness :
    (mkTimeval 3000).tv_sec * 1000000 + (mkTimeval 3000).tv_usec = 3000 * 1000 :=
  (mkTimeval_exact 3000 (by decide) (by decide)).2.2.1

/-- C7 as stated fails: when `socket()` returns `-1`, `isPortOpen` returns `false`
after that single call and writes nothing, so no error annotation accompanies
the `false`. -/
theorem isPortOpen_socket_failure_silent :
    ¬ ((isPortOpenRun socketFails 500).ret = false ∧ (isPortOpenRun socketFails 500).written ≠ []) := by
  decide

/-- C7, amended. `isPortOpen` returns `true` exactly when `socket()` returned a
descriptor `≥ 0`, `select()` returned `> 0` and the error read by `getsockopt`
is `0`. It returns `false` when `select()` reports a timeout or a failure, when
a socket error is pending and when `socket()` fails; in the last case it returns
right after the `socket` call and nothing is written: the `false` carries no
annotation. Every call returns a `bool`. -/
theorem isPortOpen_classification (os : String → Int → SockOracle) (ip : String) (port : Int)
    (timeout_ms : Int) :
    (isPortOpen os ip port timeout_ms = true ↔
      (0 ≤ (os ip port).socket ∧ 0 < (os ip port).select (mkTimeval timeout_ms) ∧
        (os ip port).so_error = 0)) ∧
    ((os ip port).select (mkTimeval timeout_ms) ≤ 0 → isPortOpen os ip port timeout_ms = false) ∧
    ((os ip port).so_error ≠ 0 → isPortOpen os ip port timeout_ms = false) ∧
    ((os ip port).socket < 0 →
      isPortOpenRun (os ip port) timeout_ms = { ret := false, calls := [.socket], written := [] }) ∧
    (isPortOpenRun (os ip port) timeout_ms).written = [] := by
  unfold isPortOpen isPortOpenRun
  refine ⟨?_, ?_, ?_, ?_, ?_⟩
  · by_cases h₁ : (os ip port).socket < 0
    · rw [if_pos h₁]
      constructor
      · intro h; cases h
      · intro h; omega
    · rw [if_neg h₁]
      by_cases h₂ : (os ip port).select (mkTimeval timeout_ms) > 0
      · rw [if_pos h₂]
        constructor
        · intro h; exact ⟨by omega, h₂, by simpa using h⟩
        · intro h; simpa using h.2.2
      · rw [if_neg h₂]
        constructor
        · intro h; cases h
        · intro h; exact absurd h.2.1 h₂
  · intro h
    have h₂ : ¬ (os ip port).select (mkTimeval timeout_ms) > 0 := by omega
    by_cases h₁ : (os ip port).socket < 0 <;> simp [h₁, h₂]
  · intro h
    by_cases h₁ : (os ip port).socket < 0
    · simp [h₁]
    · by_cases h₂ : (os ip port).select (mkTimeval timeout_ms) > 0 <;> simp [h₁, h₂, h]
  · intro h
    simp [h]
  · by_cases h₁ : (os ip port).socket < 0
    · simp [h₁]
    · by_cases h₂ : (os ip port).select (mkTimeval timeout_ms) > 0 <;> simp [h₁, h₂]

theorem isPortOpen_classification_witness :
    isPortOpenRun socketFails 500 = { ret := false, calls := [.socket], written := [] } :=
  (isPortOpen_classification (fun _ _ => socketFails) "10.0.0.1" 80 500).2.2.2.1 (by decide)

/-! ## The port sweep -/

/-- C3. For every probe outcome function and every port table `ps`, the loop of
`portScanner` reports one row per entry of `ps`, in the order of `ps`, each with
the outcome of its own probe: the rows are `ps.map (p ↦ (p, open p))`. The
built-in table holds the 16 ports 21, 22, 23, 25, 53, 80, 110, 143, 443, 445,
3306, 3389, 5432, 5900, 8080, 8443 in that order, and for the ports 22, 80, 443
with only 80 open the rows are `(22, false), (80, true), (443, false)`. -/
theorem portSweep_order (probe : String → Int → Int → Bool) (ip : String)
    (ps : List (Int × String)) :
    (portSweepLoop probe ip ps ⟨[], [], false⟩).report
      = ps.map (fun p => ⟨p.1, p.2, probe ip p.1 3000⟩) ∧
    ((portSweepLoop probe ip ps ⟨[], [], false⟩).report.map (fun l => (l.port, l.isOpen)))
      = ps.map (fun p => (p.1, probe ip p.1 3000)) ∧
    (portSweepLoop probe ip ps ⟨[], [], false⟩).report.length = ps.length ∧
    (portSweepLoop probe ip commonPorts ⟨[], [], false⟩).report.map (fun l => l.port)
      = [21, 22, 23, 25, 53, 80, 110, 143, 443, 445, 3306, 3389, 5432, 5900, 8080, 8443] ∧
    (∀ s₁ s₂ s₃ : String, probe ip 22 3000 = false → probe ip 80 3000 = true →
      probe ip 443 3000 = false →
      (portSweepLoop probe ip [(22, s₁), (80, s₂), (443, s₃)] ⟨[], [], false⟩).report.map
          (fun l => (l.port, l.isOpen))
        = [(22, false), (80, true), (443, false)]) := by
  refine ⟨?_, ?_, ?_, ?_, ?_⟩
  · simp [portSweepLoop_eq]
  · simp [portSweepLoop_eq, Function.comp_def]
  · simp [portSweepLoop_eq]
  · simp [portSweepLoop_eq, Function.comp_def, commonPorts]
  · intro s₁ s₂ s₃ h₁ h₂ h₃
    simp [portSweepLoop_eq, h₁, h₂, h₃]

theorem portSweep_order_witness :
    (portSweepLoop (fun _ p _ => p == 80) "10.0.0.7" [(22, "SSH"), (80, "HTTP"), (443, "HTTPS")]
        ⟨[], [], false⟩).report.map (fun l => (l.port, l.isOpen))
      = [(22, false), (80, true), (443, false)] :=
  (portSweep_order (fun _ p _ => p == 80) "10.0.0.7" []).2.2.2.2 "SSH" "HTTP" "HTTPS"
    (by decide) (by decide) (by decide)

/-- C6. For a target of fewer than `2 ^ 64` characters, `portScanner` makes no
probe exactly when the target has a character outside `0123456789.` and
`dnsLookup` returns `Failed` for it; then it reports the failure and prints no
row. A target of digits and dots is probed as it stands, a target that resolves
is probed at the resolved address, in both cases with the 16 probes of the
built-in table, each with timeout 3000. For `does-not-exist.invalid` with a
failing resolver no probe is made. -/
theorem portScanner_probes (getaddrinfo : String → Option String)
    (probe : String → Int → Int → Bool) (target : String) (hlen : target.length < 2 ^ 64) :
    ((portScanner getaddrinfo probe target).probes = [] ↔
      ((∃ c ∈ target.data, c ∉ "0123456789.".data) ∧ dnsLookup getaddrinfo target = "Failed")) ∧
    ((∃ c ∈ target.data, c ∉ "0123456789.".data) → dnsLookup getaddrinfo target = "Failed" →
      portScanner getaddrinfo probe target = { probes := [], report := [], unresolved := true }) ∧
    ((∀ c ∈ target.data, c ∈ "0123456789.".data) →
      (portScanner getaddrinfo probe target).probes
        = commonPorts.map (fun p => ⟨target, p.1, 3000⟩)) ∧
    ((∃ c ∈ target.data, c ∉ "0123456789.".data) → dnsLookup getaddrinfo target ≠ "Failed" →
      (portScanner getaddrinfo probe target).probes
        = commonPorts.map (fun p => ⟨dnsLookup getaddrinfo target, p.1, 3000⟩)) ∧
    (¬ ((∃ c ∈ target.data, c ∉ "0123456789.".data) ∧ dnsLookup getaddrinfo target = "Failed") →
      (portScanner getaddrinfo probe target).probes.length = 16) ∧
    (getaddrinfo "does-not-exist.invalid" = none →
      portScanner getaddrinfo probe "does-not-exist.invalid"
        = { probes := [], report := [], unresolved := true }) := by
  have hfind := find_first_not_of_ne_npos target "0123456789." hlen
  have hA : (∃ c ∈ target.data, c ∉ "0123456789.".data) →
      dnsLookup getaddrinfo target = "Failed" →
      portScanner getaddrinfo probe target = { probes := [], report := [], unresolved := true } := by
    intro h₁ h₂
    unfold portScanner
    rw [if_pos (hfind.mpr h₁)]
    simp only [h₂, if_true]
  have hB : (∀ c ∈ target.data, c ∈ "0123456789.".data) →
      (portScanner getaddrinfo probe target).probes
        = commonPorts.map (fun p => ⟨target, p.1, 3000⟩) := by
    intro h₁
    have h₂ : ¬ find_first_not_of target "0123456789." ≠ npos := by
      rw [hfind]; push_neg; exact h₁
    unfold portScanner
    rw [if_neg h₂, portSweepLoop_eq]
    simp
  have hC : (∃ c ∈ target.data, c ∉ "0123456789.".data) →
      dnsLookup getaddrinfo target ≠ "Failed" →
      (portScanner getaddrinfo probe target).probes
        = commonPorts.map (fun p => ⟨dnsLookup getaddrinfo target, p.1, 3000⟩) := by
    intro h₁ h₂
    unfold portScanner
    rw [if_pos (hfind.mpr h₁)]
    simp only [h₂, if_false]
    rw [portSweepLoop_eq]
    simp
  have hlen16 : ∀ ip : String,
      (commonPorts.map (fun p => (⟨ip, p.1, 3000⟩ : ProbeCall))).length = 16 := by
    intro ip; simp [commonPorts]
  have hD : ¬ ((∃ c ∈ target.data, c ∉ "0123456789.".data) ∧
      dnsLookup getaddrinfo target = "Failed") →
      (portScanner getaddrinfo probe target).probes.length = 16 := by
    intro h
    by_cases h₁ : ∃ c ∈ target.data, c ∉ "0123456789.".data
    · have h₂ : dnsLookup getaddrinfo target ≠ "Failed" := fun e => h ⟨h₁, e⟩
      rw [hC h₁ h₂]; exact hlen16 _
    · push_neg at h₁
      rw [hB h₁]; exact hlen16 _
  refine ⟨⟨?_, ?_⟩, hA, hB, hC, hD, ?_⟩
  · intro h
    by_contra hne
    have := hD hne
    rw [h] at this
    simp at this
  · intro h
    rw [hA h.1 h.2]
  · intro h
    have h₁ : find_first_not_of "does-not-exist.invalid" "0123456789." ≠ npos := by decide
    unfold portScanner
    rw [if_pos h₁]
    simp [dnsLookup, h]

theorem portScanner_probes_witness :
    portScanner (fun _ => none) (fun _ _ _ => true) "does-not-exist.invalid"
      = { probes := [], report := [], unresolved := true } :=
  (portScanner_probes (fun _ => none) (fun _ _ _ => true) "does-not-exist.invalid"
    (by decide)).2.2.2.2.2 rfl

/-! ## The /24 targets -/

/-- C10. For a local address `p.d` whose last part `d` has no dot, the prefix
computed by the sweeps is `p.` (everything up to and including the last dot)
and the addresses probed are `p.1`, ..., `p.254`, in this order; for an address
without any dot the prefix is empty and the addresses are `1`, ..., `254`. In
both cases these are 254 pairwise distinct strings, and neither the prefix
followed by `0` nor the prefix followed by `255` is among them. -/
theorem slash24_targets (localIP : String) (hlen : localIP.length < 2 ^ 63) :
    (∀ p d : String, localIP = p ++ "." ++ d → '.' ∉ d.data →
      networkPrefix localIP = p ++ "." ∧
      candidates (networkPrefix localIP)
        = (List.range' 1 254).map (fun i : Nat => p ++ "." ++ to_string i)) ∧
    ('.' ∉ localIP.data →
      networkPrefix localIP = "" ∧
      candidates (networkPrefix localIP)
        = (List.range' 1 254).map (fun i : Nat => "" ++ to_string i)) ∧
    (candidates (networkPrefix localIP)).length = 254 ∧
    (candidates (networkPrefix localIP)).Nodup ∧
    (candidates (networkPrefix localIP)).head? = some (networkPrefix localIP ++ "1") ∧
    (candidates (networkPrefix localIP)).getLast? = some (networkPrefix localIP ++ "254") ∧
    networkPrefix localIP ++ "0" ∉ candidates (networkPrefix localIP) ∧
    networkPrefix localIP ++ "255" ∉ candidates (networkPrefix localIP) := by
  refine ⟨?_, ?_, ?_, candidates_nodup _, ?_, ?_, ?_, ?_⟩
  · intro p d hp hd
    subst hp
    have h := networkPrefix_dotted p d hd hlen
    exact ⟨h, by rw [h]; rfl⟩
  · intro h
    have h₁ := networkPrefix_no_dot localIP h
    exact ⟨h₁, by rw [h₁]; rfl⟩
  · simp [candidates, hostIndices]
  · rfl
  · have h : hostIndices = List.range' 1 253 ++ [254] := by decide!
    unfold candidates
    rw [h, List.map_append]
    simp only [List.map_cons, List.map_nil, List.getLast?_append, List.getLast?_singleton]
    rfl
  · intro h
    obtain ⟨i, hi, he⟩ := List.mem_map.mp h
    exact hostIP_ne_of_toNat _ i 0 "0" hi (by decide!) (by decide!) he
  · intro h
    obtain ⟨i, hi, he⟩ := List.mem_map.mp h
    exact hostIP_ne_of_toNat _ i 255 "255" hi (by decide!) (by decide!) he

theorem slash24_targets_witness :
    networkPrefix "192.168.1.23" = "192.168.1." ∧
    candidates (networkPrefix "192.168.1.23")
      = (List.range' 1 254).map (fun i : Nat => "192.168.1" ++ "." ++ to_string i) :=
  (slash24_targets "192.168.1.23" (by decide)).1 "192.168.1" "23" (by decide) (by decide)

/-! ## The sweeps: ceiling, completeness, mutual exclusion -/

theorem length_le_cap {k : Sweep} {s : State} (h : MainInv k s) : s.threads.length ≤ k.cap := by
  have hk := cap_cases k
  obtain ⟨i, pc, ts, sh, st, jn⟩ := s
  cases pc <;> simp only [MainInv] at h ⊢ <;> generalize k.cap = c at hk h ⊢ <;>
    rcases hk with rfl | rfl <;> omega

theorem outstanding_le_live {k : Sweep} {env : Env} {s : State} (h : Inv k env s) :
    outstandingProbes s ≤ liveWorkers s := by
  unfold outstandingProbes liveWorkers
  have h₁ : s.threads.countP Thread.probingNow
      = (s.threads.take (joinedCount s)).countP Thread.probingNow
        + (s.threads.drop (joinedCount s)).countP Thread.probingNow := by
    rw [← List.countP_append, List.take_append_drop]
  have h₂ : (s.threads.take (joinedCount s)).countP Thread.probingNow = 0 := by
    rw [List.countP_eq_zero]
    intro t ht
    simp [Thread.probingNow, h.joinedDone t ht]
  rw [h₁, h₂, Nat.zero_add]
  exact List.countP_le_length _

/-- C1. In every reachable state of `networkScanner` at most 50 workers are
started and not yet joined, in every reachable state of `quickPingSweep` at most
100; the probes outstanding are never more than these workers, hence never more
than the cap either. The cap is attained: a state with a full batch, every
worker inside a probe, is reachable. -/
theorem concurrency_ceiling (k : Sweep) (env : Env) (s : State) (h : Reachable k env s) :
    (k = .networkScanner → liveWorkers s ≤ 50 ∧ outstandingProbes s ≤ 50) ∧
    (k = .quickPingSweep → liveWorkers s ≤ 100 ∧ outstandingProbes s ≤ 100) ∧
    liveWorkers s ≤ k.cap ∧ outstandingProbes s ≤ liveWorkers s ∧
    (∃ s₁, Reachable k env s₁ ∧ liveWorkers s₁ = k.cap ∧ outstandingProbes s₁ = k.cap) := by
  have hinv := inv_of_reachable h
  have h₁ : liveWorkers s ≤ k.cap := by
    unfold liveWorkers
    rw [List.length_drop]
    have := length_le_cap hinv.main
    omega
  have h₂ := outstanding_le_live hinv
  refine ⟨?_, ?_, h₁, h₂, reachable_fullBatch k env⟩
  · intro hk
    subst hk
    exact ⟨h₁, le_trans h₂ h₁⟩
  · intro hk
    subst hk
    exact ⟨h₁, le_trans h₂ h₁⟩

theorem concurrency_ceiling_witness :
    liveWorkers (finalState .quickPingSweep scenarioEnv) ≤ 100 ∧
    outstandingProbes (finalState .quickPingSweep scenarioEnv) ≤ 100 :=
  (concurrency_ceiling .quickPingSweep scenarioEnv _ (reachable_finalState _ _)).2.1 rfl

theorem all_finished_of_returned {k : Sweep} {env : Env} {s : State} (h : Inv k env s)
    (hret : s.pc = .returned) : ∀ t ∈ s.threads, t.pc = .finished := by
  intro t ht
  have := h.joinedDone t
  simp only [joinedCount, hret, List.take_length] at this
  exact this ht

/-- C2. Whenever a sweep has returned, the workers started over the run are
those of the host indices 1, 2, ..., 254, each once and in this order, the
workers joined are the same 254, no worker is left unjoined, every thread has
returned, and the vector holds the last, partial batch: the 4 workers 251..254
in `networkScanner`, the 54 workers 201..254 in `quickPingSweep`. Both sweeps do
return: a returned state is reachable, and from every reachable state the sweep
can run on until it returns. -/
theorem sweep_complete (k : Sweep) (env : Env) (s : State) (h : Reachable k env s)
    (hret : s.pc = .returned) :
    s.started = List.range' 1 254 ∧ s.started.length = 254 ∧ s.started.Nodup ∧
    s.joined = List.range' 1 254 ∧
    liveWorkers s = 0 ∧
    (∀ t ∈ s.threads, t.pc = .finished) ∧
    (k = .networkScanner → s.threads.map Thread.id = List.range' 251 4) ∧
    (k = .quickPingSweep → s.threads.map Thread.id = List.range' 201 54) ∧
    (Reachable k env (finalState k env) ∧ (finalState k env).pc = .returned) ∧
    (∀ s₀, Reachable k env s₀ → ∃ s₁, Steps k env s₀ s₁ ∧ s₁.pc = .returned) := by
  have hinv := inv_of_reachable h
  have hall := all_finished_of_returned hinv hret
  have hm := hinv.main
  obtain ⟨i, pc, ts, sh, st, jn⟩ := s
  simp only at hret
  subst hret
  simp only [MainInv] at hm
  obtain ⟨_, hL, hst, hjn, hids⟩ := hm
  refine ⟨hst, by rw [hst]; simp, by rw [hst]; exact List.nodup_range' 1 254, hjn, ?_, hall, ?_, ?_,
    ⟨reachable_finalState k env, rfl⟩, fun s₀ h₀ => can_return h₀⟩
  · simp [liveWorkers, joinedCount]
  · intro hk
    subst hk
    simp only
    rw [hids, hL]
    rfl
  · intro hk
    subst hk
    simp only
    rw [hids, hL]
    rfl

theorem sweep_complete_witness :
    (finalState .networkScanner scenarioEnv).started = List.range' 1 254 ∧
    (finalState .networkScanner scenarioEnv).joined = List.range' 1 254 ∧
    (finalState .networkScanner scenarioEnv).threads.map Thread.id = List.range' 251 4 :=
  have h := sweep_complete .networkScanner scenarioEnv _ (reachable_finalState _ _) rfl
  ⟨h.1, h.2.2.2.1, h.2.2.2.2.2.2.1 rfl⟩

/-- A state of `quickPingSweep` in which the worker of host 1 holds the mutex
and is about to append to `aliveHosts`. -/
theorem reachable_pushState :
    Reachable .quickPingSweep scenarioEnv
      ⟨1, .check, [⟨1, .pushing⟩], ⟨some 1, [], []⟩, [1], []⟩ := by
  refine reachable_of_steps Reachable.init ?_
  refine Steps.trans (steps_rel (MainRel.spawn 1 [] ⟨none, [], []⟩ [] [] (by decide))) ?_
  have hprobe : workerStep .quickPingSweep scenarioEnv ⟨1, .inProbe 80 [443]⟩ ⟨none, [], []⟩
      = some (.probeEnd 1 80 true, ⟨1, .waitLock⟩, ⟨none, [], []⟩) := by decide!
  refine Steps.trans (steps_worker 1 .check [] [] [1] [] ⟨1, .inProbe 80 [443]⟩ rfl) ?_
  refine Steps.trans (steps_worker 1 .check [] [] [1] [] ⟨1, .waitLock⟩ hprobe) ?_
  exact steps_worker 1 .check [] [] [1] [] ⟨1, .pushing⟩ rfl

/-- C8. Whenever a step of a sweep changes `aliveHosts` or the lines on
`std::cout`, it is a write of a worker that owns `cout_mutex` and stands inside
the critical section; a worker takes the mutex only when it is free; and in no
reachable state are two threads inside the critical section. -/
theorem writes_under_lock (k : Sweep) (env : Env) (s : State) (a : Action) (s' : State)
    (h : Reachable k env s) (hstep : Step k env s a s') :
    ((s'.sh.aliveHosts ≠ s.sh.aliveHosts ∨ s'.sh.cout ≠ s.sh.cout) →
      ∃ w, a.writer = some w ∧ s.sh.cout_mutex = some w ∧
        ∃ t ∈ s.threads, t.id = w ∧ t.inCritical = true) ∧
    (∀ w, a.writer = some w → s.sh.cout_mutex = some w) ∧
    (∀ w, a = .acquire w → s.sh.cout_mutex = none ∧ s'.sh.cout_mutex = some w) ∧
    s.threads.countP Thread.inCritical ≤ 1 ∧ s'.threads.countP Thread.inCritical ≤ 1 := by
  have hinv := inv_of_reachable h
  have hinv' := inv_step hinv hstep
  have hcount : ∀ x : State, Inv k env x → x.threads.countP Thread.inCritical ≤ 1 := by
    intro x hx
    rw [hx.critical]
    split <;> omega
  refine ⟨?_, ?_, ?_, hcount s hinv, hcount s' hinv'⟩
  · intro hch
    cases hstep with
    | main hm =>
      have hr := mainStep_rel hm
      cases hr <;> simp at hch
    | worker l₁ t l₂ t' sh' hts hw =>
      have hmem : t ∈ s.threads := by rw [hts]; simp
      have hr := workerStep_rel hw
      cases hr with
      | push id sh =>
        exact ⟨id, rfl, hinv.owner _ hmem rfl, _, hmem, rfl, rfl⟩
      | print id sh =>
        exact ⟨id, rfl, hinv.owner _ hmem rfl, _, hmem, rfl, rfl⟩
      | giveUp => simp at hch
      | probeStart => simp at hch
      | hit => simp at hch
      | miss => simp at hch
      | resolve => simp at hch
      | acquire => simp at hch
      | release => simp at hch
  · intro w hwr
    cases hstep with
    | main hm =>
      have hr := mainStep_rel hm
      cases hr <;> simp [Action.writer] at hwr
    | worker l₁ t l₂ t' sh' hts hw =>
      have hmem : t ∈ s.threads := by rw [hts]; simp
      have hr := workerStep_rel hw
      cases hr with
      | push id sh =>
        simp only [Action.writer, Option.some.injEq] at hwr
        subst hwr
        exact hinv.owner _ hmem rfl
      | print id sh =>
        simp only [Action.writer, Option.some.injEq] at hwr
        subst hwr
        exact hinv.owner _ hmem rfl
      | giveUp => simp [Action.writer] at hwr
      | probeStart => simp [Action.writer] at hwr
      | hit => simp [Action.writer] at hwr
      | miss => simp [Action.writer] at hwr
      | resolve => simp [Action.writer] at hwr
      | acquire => simp [Action.writer] at hwr
      | release => simp [Action.writer] at hwr
  · intro w hacq
    cases hstep with
    | main hm =>
      have hr := mainStep_rel hm
      cases hr <;> simp at hacq
    | worker l₁ t l₂ t' sh' hts hw =>
      have hr := workerStep_rel hw
      cases hr with
      | acquire id sh hfree =>
        simp only [Action.acquire.injEq] at hacq
        subst hacq
        exact ⟨hfree, rfl⟩
      | push => simp at hacq
      | print => simp at hacq
      | giveUp => simp at hacq
      | probeStart => simp at hacq
      | hit => simp at hacq
      | miss => simp at hacq
      | resolve => simp at hacq
      | release => simp at hacq

theorem writes_under_lock_witness :
    (⟨some 1, [], []⟩ : Shared).cout_mutex = some 1 :=
  (writes_under_lock .quickPingSweep scenarioEnv
    ⟨1, .check, [⟨1, .pushing⟩], ⟨some 1, [], []⟩, [1], []⟩ (.push 1)
    ⟨1, .check, [⟨1, .printing⟩], ⟨some 1, ["192.168.1.1"], []⟩, [1], []⟩
    reachable_pushState
    (Step.worker (s := ⟨1, .check, [⟨1, .pushing⟩], ⟨some 1, [], []⟩, [1], []⟩)
      [] ⟨1, .pushing⟩ [] ⟨1, .printing⟩ ⟨some 1, ["192.168.1.1"], []⟩ rfl (by decide!))).2.1 1 rfl

/-! ## The sweeps: what is reported -/

theorem expectedLines_ip (k : Sweep) (env : Env) (l : List Nat) :
    (expectedLines k env l).map OutLine.ip
      = (l.filter (hostUp k env)).map (hostIP env.networkPrefix) := by
  unfold expectedLines
  rw [List.map_map]
  apply List.map_congr_left
  intro i _
  cases k <;> rfl

theorem upHosts_nodup (k : Sweep) (env : Env) :
    ((hostIndices.filter (hostUp k env)).map (hostIP env.networkPrefix)).Nodup := by
  refine (List.nodup_map_iff_inj_on (hostIndices_nodup.filter _)).mpr ?_
  intro i hi j hj h
  exact hostIP_injOn _ i j (List.mem_of_mem_filter hi) (List.mem_of_mem_filter hj) h

theorem mem_upHosts (k : Sweep) (env : Env) (i : Nat) (hi : i ∈ hostIndices) :
    hostIP env.networkPrefix i ∈ (hostIndices.filter (hostUp k env)).map (hostIP env.networkPrefix)
      ↔ hostUp k env i = true := by
  constructor
  · intro h
    obtain ⟨j, hj, he⟩ := List.mem_map.mp h
    have hj' := List.mem_filter.mp hj
    have := hostIP_injOn _ j i hj'.1 hi he
    subst this
    exact hj'.2
  · intro h
    exact List.mem_map.mpr ⟨i, List.mem_filter.mpr ⟨hi, h⟩, rfl⟩

theorem count_upHosts (k : Sweep) (env : Env) (i : Nat) (hi : i ∈ hostIndices) :
    ((hostIndices.filter (hostUp k env)).map (hostIP env.networkPrefix)).count
        (hostIP env.networkPrefix i)
      = if hostUp k env i then 1 else 0 := by
  by_cases h : hostUp k env i = true
  · rw [if_pos h]
    exact List.count_eq_one_of_mem (upHosts_nodup k env) ((mem_upHosts k env i hi).mpr h)
  · rw [if_neg h]
    exact List.count_eq_zero_of_not_mem (fun hm => h ((mem_upHosts k env i hi).mp hm))

theorem reported_perm {k : Sweep} {env : Env} {s : State} (h : Reachable k env s)
    (hret : s.pc = .returned) :
    (reported s).Perm ((hostIndices.filter (hostUp k env)).map (hostIP env.networkPrefix)) := by
  have hinv := inv_of_reachable h
  have hall := all_finished_of_returned hinv hret
  have hl := hinv.lines
  have hst : s.started = hostIndices := by
    have hm := hinv.main
    obtain ⟨i, pc, ts, sh, st, jn⟩ := s
    simp only at hret
    subst hret
    simp only [MainInv] at hm
    exact hm.2.2.1
  rw [pendingPrint_finished k env _ hall, List.append_nil, hst] at hl
  unfold reported
  rw [← expectedLines_ip]
  exact hl.map _

theorem aliveHosts_perm {k : Sweep} {env : Env} {s : State} (h : Reachable k env s)
    (hret : s.pc = .returned) :
    s.sh.aliveHosts.Perm (expectedAlive k env hostIndices) := by
  have hinv := inv_of_reachable h
  have hall := all_finished_of_returned hinv hret
  have hl := hinv.alive
  have hst : s.started = hostIndices := by
    have hm := hinv.main
    obtain ⟨i, pc, ts, sh, st, jn⟩ := s
    simp only at hret
    subst hret
    simp only [MainInv] at hm
    exact hm.2.2.1
  rw [pendingPush_finished k env _ hall, List.append_nil, hst] at hl
  exact hl

/-- C4. When a sweep has returned, under whatever interleaving, the address of
host `i` (1 ≤ i ≤ 254) is on `std::cout` once if one of its signal ports is open
and not at all otherwise, and nothing else is reported; the signal ports are
80, 443, 22 in `networkScanner` and 80, 443 in `quickPingSweep`. In
`quickPingSweep` the vector `aliveHosts` has no duplicates, holds each host
once or not at all by the same rule, and its size is the number of hosts with
port 80 or 443 open. Two returned sweeps in the same environment report the
same hosts. -/
theorem reachability_is_or (k : Sweep) (env : Env) (s : State) (h : Reachable k env s)
    (hret : s.pc = .returned) :
    (∀ i, hostUp .networkScanner env i
      = (env.probe (hostIP env.networkPrefix i) 80 200
          || env.probe (hostIP env.networkPrefix i) 443 200
          || env.probe (hostIP env.networkPrefix i) 22 200)) ∧
    (∀ i, hostUp .quickPingSweep env i
      = (env.probe (hostIP env.networkPrefix i) 80 100
          || env.probe (hostIP env.networkPrefix i) 443 100)) ∧
    (∀ i ∈ hostIndices,
      (reported s).count (hostIP env.networkPrefix i) = if hostUp k env i then 1 else 0) ∧
    (∀ x ∈ reported s, x ∈ candidates env.networkPrefix) ∧
    (reported s).Nodup ∧
    (k = .quickPingSweep →
      s.sh.aliveHosts.Nodup ∧
      s.sh.aliveHosts.length = hostIndices.countP (hostUp .quickPingSweep env) ∧
      ∀ i ∈ hostIndices, s.sh.aliveHosts.count (hostIP env.networkPrefix i)
        = if hostUp .quickPingSweep env i then 1 else 0) ∧
    (∀ s₂, Reachable k env s₂ → s₂.pc = .returned →
      (reported s).Perm (reported s₂) ∧ s.sh.aliveHosts.Perm s₂.sh.aliveHosts) := by
  have hp := reported_perm h hret
  have ha := aliveHosts_perm h hret
  refine ⟨?_, ?_, ?_, ?_, ?_, ?_, ?_⟩
  · intro i
    simp [hostUp, Sweep.signalPorts, Sweep.timeout_ms, Bool.or_assoc]
  · intro i
    simp [hostUp, Sweep.signalPorts, Sweep.timeout_ms]
  · intro i hi
    rw [hp.count_eq]
    exact count_upHosts k env i hi
  · intro x hx
    obtain ⟨i, hi, he⟩ := List.mem_map.mp (hp.mem_iff.mp hx)
    exact List.mem_map.mpr ⟨i, List.mem_of_mem_filter hi, he⟩
  · exact hp.nodup_iff.mpr (upHosts_nodup k env)
  · intro hk
    subst hk
    simp only [expectedAlive] at ha
    refine ⟨ha.nodup_iff.mpr (upHosts_nodup _ env), ?_, ?_⟩
    · rw [ha.length_eq, List.length_map, List.countP_eq_length_filter]
    · intro i hi
      rw [ha.count_eq]
      exact count_upHosts _ env i hi
  · intro s₂ h₂ hret₂
    exact ⟨hp.trans (reported_perm h₂ hret₂).symm, ha.trans (aliveHosts_perm h₂ hret₂).symm⟩

theorem reachability_is_or_witness :
    (reported (finalState .networkScanner scenarioEnv)).count (hostIP "192.168.1." 7)
      = if hostUp .networkScanner scenarioEnv 7 then 1 else 0 :=
  (reachability_is_or .networkScanner scenarioEnv _ (reachable_finalState _ _) rfl).2.2.1 7
    (by decide)

/-- C5 as stated fails for `networkScanner`: in a network where exactly
192.168.1.1 and 192.168.1.50 have port 80 or 443 open and 192.168.1.7 has only
port 22 open, the sweep can return having reported 192.168.1.7 as well. -/
theorem scenarioA_port22 :
    scenarioEnv.networkPrefix = "192.168.1." ∧
    (∀ x : String, (scenarioEnv.probe x 80 200 || scenarioEnv.probe x 443 200) = true
      ↔ (x = "192.168.1.1" ∨ x = "192.168.1.50")) ∧
    Reachable .networkScanner scenarioEnv (finalState .networkScanner scenarioEnv) ∧
    (finalState .networkScanner scenarioEnv).pc = .returned ∧
    "192.168.1.7" ∈ reported (finalState .networkScanner scenarioEnv) ∧
    ¬ (∀ x, x ∈ reported (finalState .networkScanner scenarioEnv)
      ↔ (x = "192.168.1.1" ∨ x = "192.168.1.50")) := by
  have hmem : "192.168.1.7" ∈ reported (finalState .networkScanner scenarioEnv) := by
    have hp := reported_perm (reachable_finalState .networkScanner scenarioEnv) rfl
    rw [hp.mem_iff]
    have h7 : hostIP scenarioEnv.networkPrefix 7 = "192.168.1.7" := by decide!
    rw [← h7, mem_upHosts _ _ 7 (by decide)]
    decide!
  refine ⟨rfl, ?_, reachable_finalState _ _, rfl, hmem, ?_⟩
  · intro x
    simp [scenarioEnv]
  · intro hall
    have := (hall "192.168.1.7").mp hmem
    revert this
    decide

/-- C5, amended. With prefix `192.168.1.`, if the hosts of the range that have a
signal port of the sweep open (80, 443 or 22 for `networkScanner`, 80 or 443 for
`quickPingSweep`) are exactly 192.168.1.1 and 192.168.1.50, then a returned
sweep has reported exactly these two hosts, each once; in `quickPingSweep` the
vector `aliveHosts` holds exactly these two. -/
theorem scenarioA (k : Sweep) (env : Env) (s : State)
    (hpfx : env.networkPrefix = "192.168.1.")
    (hopen : ∀ x ∈ candidates "192.168.1.",
      (k.signalPorts.any (fun p => env.probe x p k.timeout_ms)) = true
        ↔ (x = "192.168.1.1" ∨ x = "192.168.1.50"))
    (h : Reachable k env s) (hret : s.pc = .returned) :
    (∀ x, x ∈ reported s ↔ (x = "192.168.1.1" ∨ x = "192.168.1.50")) ∧
    (reported s).length = 2 ∧ (reported s).Nodup ∧
    (k = .quickPingSweep →
      (∀ x, x ∈ s.sh.aliveHosts ↔ (x = "192.168.1.1" ∨ x = "192.168.1.50")) ∧
      s.sh.aliveHosts.length = 2) := by
  have hp := reported_perm h hret
  have ha := aliveHosts_perm h hret
  have h1 : hostIP "192.168.1." 1 = "192.168.1.1" := by decide!
  have h50 : hostIP "192.168.1." 50 = "192.168.1.50" := by decide!
  have hup : ∀ i ∈ hostIndices, hostUp k env i = true ↔ (i = 1 ∨ i = 50) := by
    intro i hi
    have hc : hostIP "192.168.1." i ∈ candidates "192.168.1." := List.mem_map.mpr ⟨i, hi, rfl⟩
    unfold hostUp
    rw [hpfx, hopen _ hc, ← h1, ← h50]
    constructor
    · rintro (he | he)
      · exact Or.inl (hostIP_injOn _ i 1 hi (by decide) he)
      · exact Or.inr (hostIP_injOn _ i 50 hi (by decide) he)
    · rintro (rfl | rfl)
      · exact Or.inl rfl
      · exact Or.inr rfl
  have hfilter : hostIndices.filter (hostUp k env) = [1, 50] := by
    have e : hostIndices.filter (hostUp k env)
        = hostIndices.filter (fun i => decide (i = 1 ∨ i = 50)) := by
      apply List.filter_congr
      intro i hi
      by_cases hc : i = 1 ∨ i = 50
      · rw [(hup i hi).mpr hc]; simp [hc]
      · have : hostUp k env i = false := by
          simpa using fun hh => hc ((hup i hi).mp hh)
        rw [this]; simp [hc]
    rw [e]
    decide!
  rw [hfilter, hpfx] at hp
  simp only [List.map_cons, List.map_nil, h1, h50] at hp
  refine ⟨?_, ?_, ?_, ?_⟩
  · intro x
    rw [hp.mem_iff]
    simp
  · rw [hp.length_eq]; rfl
  · rw [hp.nodup_iff]; decide
  · intro hk
    subst hk
    simp only [expectedAlive, hfilter, hpfx, List.map_cons, List.map_nil, h1, h50] at ha
    refine ⟨?_, ?_⟩
    · intro x
      rw [ha.mem_iff]
      simp
    · rw [ha.length_eq]; rfl

theorem scenarioA_witness :
    (reported (finalState .networkScanner scenarioEnvA)).length = 2 :=
  (scenarioA .networkScanner scenarioEnvA _ rfl
    (by
      intro x _
      simp [scenarioEnvA, Sweep.signalPorts])
    (reachable_finalState _ _) rfl).2.1

end QuickLog
